import Mathlib

/-!
# ratelimit-go: the atomic limiter

A shallow embedding of `ratelimit.go` (and of the rate guard of `echo.go`).

Modelling conventions.

* `time.Duration` is a signed count of nanoseconds; `time.Time` is taken as the signed
  nanosecond offset from the zero `time.Time`, so `t.IsZero()` is `t = 0`,
  `t.Sub(u)` is `t - u` and `t.Add(d)` is `t + d`.
* The constructor's arithmetic is int64 arithmetic: its product wraps (`mul64`, `div64`).
  The sums and differences of debts and clock readings in `Take` and `spinTakePointer` are
  taken on the integers: they stay inside int64 unless two clock readings are centuries
  apart.
* The limiter's `state` pointer is the one shared cell.  The immutable configuration
  (`perRequest`, `maxBurst`) is the record `atomicLimiter`; the content of the cell is passed
  explicitly.  What a call reads from the outside world is an argument: the snapshot returned
  by `atomic.LoadPointer`, the reading of `time.Now()`, and whether
  `atomic.CompareAndSwapPointer` finds the cell unchanged (`wins`).
* Both `time.Duration` and `time.Time` values are written with the type `Int`.
* Every `CompareAndSwapPointer` call is logged as a `casEvent`, so that the number of attempts
  and the writes of a call can be stated.
* Concurrent `Take()` calls are modelled as interleavings (`runSchedule`) of the two steps of
  each goroutine, the load and the rest of the call with its compare-and-swap on the pointer
  (`stepTake`); the pointer values are allocation numbers.
-/

namespace ratelimit

/-- Constant `time.Millisecond`. -/
def Millisecond : Int := 1000000

/-- Constant `time.Second`. -/
def Second : Int := 1000000000

/-- The `state` struct: the value the shared pointer points to. -/
structure state where
  last : Int
  sleepFor : Int
deriving DecidableEq, Repr

/-- The configuration fields of `atomicLimiter` (the `state` pointer is the shared cell, passed
explicitly; `padding` carries no data). -/
structure atomicLimiter where
  perRequest : Int
  maxBurst : Int
deriving DecidableEq, Repr

/-- One call of `atomic.CompareAndSwapPointer(&l.state, old, new)` and its outcome. -/
structure casEvent where
  old : state
  new : state
  swapped : Bool
deriving DecidableEq, Repr

/-- The cell after a sequence of compare-and-swap calls: a swap that succeeded stores its new
value, one that failed leaves the cell alone. -/
def install (cell : state) (log : List casEvent) : state :=
  log.foldl (fun c e => if e.swapped then e.new else c) cell

/-- The states written by a sequence of compare-and-swap calls. -/
def writes (log : List casEvent) : List state :=
  (log.filter (fun e => e.swapped)).map (fun e => e.new)

/-- The int64 value of an integer result: Go's arithmetic on `time.Duration` (an int64) wraps
around in two's complement. -/
def wrap64 (x : Int) : Int :=
  (x + 9223372036854775808) % 18446744073709551616 - 9223372036854775808

/-- Go's `*` on int64 operands: the product wraps. -/
def mul64 (a b : Int) : Int := wrap64 (a * b)

/-- Go's `/` on int64 operands with a non-zero divisor: the quotient truncated toward zero; the
one quotient that does not fit, `MinInt64 / -1`, wraps to `MinInt64`. -/
def div64 (a b : Int) : Int :=
  if a = -9223372036854775808 ∧ b = -1 then -9223372036854775808 else Int.tdiv a b

/-- Function `newAtomicBased`: the limiter and the initial content of its cell.  The arguments
are int64 values (`int`, `int`, `time.Duration`).  The integer division
`duration / time.Duration(rate)` panics when `rate` is zero (`none`); the product
`-1 * time.Duration(maxBurst) * perRequest` is computed left to right in int64 and wraps. -/
def newAtomicBased (rate maxBurst : Int) (duration : Int) : Option (atomicLimiter × state) :=
  if rate = 0 then none
  else
    let perRequest := div64 duration rate
    let l : atomicLimiter :=
      { perRequest := perRequest, maxBurst := mul64 (mul64 (-1) maxBurst) perRequest }
    let initialState : state := { last := 0, sleepFor := 0 }
    some (l, initialState)

/-- Function `New`. -/
def New (rate maxBurst : Int) (duration : Int) : Option (atomicLimiter × state) :=
  newAtomicBased rate maxBurst duration

/-- The limiter built by `NewRateLimitMiddleware` and `NewSpinRateLimitMiddleware` (`echo.go`):
a zero rate is replaced by one before `New` is called. -/
def NewRateLimitMiddleware (rate maxBurst : Int) (duration : Int) :
    Option (atomicLimiter × state) :=
  let rate := if rate = 0 then 1 else rate
  New rate maxBurst duration

/-- Result of one `Take()` call: the returned boolean and the compare-and-swap calls made. -/
structure takeResult where
  ret : Bool
  cas : List casEvent
deriving DecidableEq, Repr

/-- Method `atomicLimiter.Take`.  `oldState` is the snapshot loaded from the cell, `now` the
clock reading, `wins` the outcome of the compare-and-swap if one is attempted. -/
def Take (l : atomicLimiter) (oldState : state) (now : Int) (wins : Bool) : takeResult :=
  let newState : state := { last := now, sleepFor := oldState.sleepFor }
  if oldState.last = 0 then
    { ret := wins, cas := [{ old := oldState, new := newState, swapped := wins }] }
  else
    let newState : state :=
      { newState with sleepFor := newState.sleepFor + (l.perRequest - (now - oldState.last)) }
    let newState : state :=
      if newState.sleepFor < l.maxBurst then { newState with sleepFor := l.maxBurst }
      else newState
    if newState.sleepFor > 0 then
      { ret := false, cas := [] }
    else
      { ret := wins, cas := [{ old := oldState, new := newState, swapped := wins }] }

/-- One input of an iteration of the loop of `spinTakePointer`: the snapshot it loads, its
clock reading and the outcome of its compare-and-swap. -/
structure spinInput where
  oldState : state
  now : Int
  wins : Bool
deriving DecidableEq, Repr

/-- The variables of `spinTakePointer` that live across iterations (`newState`, `taken`,
`interval`), with the number of iterations run and the log of compare-and-swap calls. -/
structure spinVars where
  newState : state
  taken : Bool
  interval : Int
  iterations : Nat
  cas : List casEvent
deriving DecidableEq, Repr

/-- Body of the loop of `spinTakePointer`. -/
def spinIter (l : atomicLimiter) (inp : spinInput) (v : spinVars) : spinVars :=
  let oldState := inp.oldState
  let now := inp.now
  let newState : state := { last := now, sleepFor := oldState.sleepFor }
  if oldState.last = 0 then
    { newState := newState, taken := inp.wins, interval := v.interval,
      iterations := v.iterations + 1,
      cas := v.cas ++ [{ old := oldState, new := newState, swapped := inp.wins }] }
  else
    let newState : state :=
      { newState with sleepFor := newState.sleepFor + (l.perRequest - (now - oldState.last)) }
    let newState : state :=
      if newState.sleepFor < l.maxBurst then { newState with sleepFor := l.maxBurst }
      else newState
    let interval : Int := if newState.sleepFor > 0 then newState.sleepFor else v.interval
    let newState : state :=
      if newState.sleepFor > 0 then { last := newState.last + newState.sleepFor, sleepFor := 0 }
      else newState
    { newState := newState, taken := inp.wins, interval := interval,
      iterations := v.iterations + 1,
      cas := v.cas ++ [{ old := oldState, new := newState, swapped := inp.wins }] }

/-- The loop `for !taken && maxTry > 0 { maxTry--; ... }` of `spinTakePointer`; iteration
number `k` (from 0) reads `inputs k`. -/
def spinLoop (l : atomicLimiter) (inputs : Nat → spinInput) : Nat → spinVars → spinVars
  | 0, v => v
  | maxTry + 1, v =>
    if v.taken then v
    else spinLoop l inputs maxTry (spinIter l (inputs v.iterations) v)

/-- Result of `spinTakePointer`: the returned boolean, the duration passed to `time.Sleep`
(`none` when it is not called), the number of loop iterations and the compare-and-swap calls. -/
structure spinResult where
  ret : Bool
  slept : Option Int
  iterations : Nat
  cas : List casEvent
deriving DecidableEq, Repr

/-- Method `atomicLimiter.spinTakePointer`. -/
def spinTakePointer (l : atomicLimiter) (inputs : Nat → spinInput) : spinResult :=
  let v := spinLoop l inputs 5
    { newState := { last := 0, sleepFor := 0 }, taken := false, interval := 0,
      iterations := 0, cas := [] }
  { ret := v.taken, slept := if v.taken then some v.interval else none,
    iterations := v.iterations, cas := v.cas }

/-- Method `atomicLimiter.SpinTake`: `spinTakePointer` runs in a goroutine and `select` takes
whichever comes first, the timer `time.After(maxSpin)` (then the result is false) or the value
the goroutine sends.  The goroutine sends once `spinTakePointer` has returned, that is after
the duration it slept (the loop itself is taken as instantaneous); the timer fires after
`maxSpin`.  When both are ready at the same time `select` may take either: `timerFirst` says
which.  The goroutine runs whatever the timer does, so the compare-and-swap calls are those of
`spinTakePointer` in every case. -/
def SpinTake (l : atomicLimiter) (inputs : Nat → spinInput) (maxSpin : Int)
    (timerFirst : Bool) : takeResult :=
  let r := spinTakePointer l inputs
  let elapsed : Int :=
    match r.slept with
    | some d => max d 0
    | none => 0
  let timerWins : Bool :=
    if maxSpin < elapsed then true
    else if elapsed < maxSpin then false
    else timerFirst
  { ret := if timerWins then false else r.ret, cas := r.cas }

/-- Sequential run of `Take()` calls, each on the cell left by the previous one: the results
and the final cell.  A call is a clock reading with the outcome of its compare-and-swap. -/
def runTake (l : atomicLimiter) : state → List (Int × Bool) → List Bool × state
  | S, [] => ([], S)
  | S, c :: cs =>
    let r := Take l S c.1 c.2
    let rest := runTake l (install S r.cas) cs
    (r.ret :: rest.1, rest.2)

/-- Sequential run of uncontended `Take()` calls at the given clock readings. -/
def runTakeNow (l : atomicLimiter) (S : state) (nows : List Int) : List Bool × state :=
  runTake l S (nows.map (fun t => (t, true)))

/-- The instants of the admitted calls (those that returned true) of a sequential uncontended
run of `Take()`, in call order. -/
def admitted (l : atomicLimiter) (S : state) (nows : List Int) : List Int :=
  ((nows.zip (runTakeNow l S nows).1).filter (fun p => p.2)).map (fun p => p.1)

/-- The per-iteration inputs of an uncontended `SpinTake` on the cell `S` read at `now`: no
other call touches the cell, so every iteration would load `S` and win its swap. -/
def uncontended (S : state) (now : Int) : Nat → spinInput :=
  fun _ => { oldState := S, now := now, wins := true }

/-- The release instant of an uncontended `SpinTake` on the cell `S` read at `now`: the clock
reading plus the duration `spinTakePointer` sleeps. -/
def releaseOf (l : atomicLimiter) (S : state) (now : Int) : Int :=
  now + ((spinTakePointer l (uncontended S now)).slept.getD 0)

/-- Sequential run of uncontended `SpinTake` calls, each on the cell left by the previous one.
A call is a clock reading with its `maxSpin` and the outcome of a tie in `select`; for each
call the run gives the returned boolean and the release instant, and at the end the cell. -/
def runSpinTake (l : atomicLimiter) :
    state → List (Int × Int × Bool) → List (Bool × Int) × state
  | S, [] => ([], S)
  | S, c :: cs =>
    let r := SpinTake l (uncontended S c.1) c.2.1 c.2.2
    let rest := runSpinTake l (install S r.cas) cs
    ((r.ret, releaseOf l S c.1) :: rest.1, rest.2)

/-- The release instants of a sequential run of uncontended `SpinTake` calls, in call order. -/
def releases (l : atomicLimiter) (S : state) (calls : List (Int × Int × Bool)) : List Int :=
  (runSpinTake l S calls).1.map (fun r => r.2)

/-- A value of the shared `state` pointer: `ptr` names the allocation it points to, `val` is
the `state` stored there (never written once the pointer is published).
`atomic.CompareAndSwapPointer` compares `ptr`. -/
structure pointer where
  ptr : Nat
  val : state
deriving DecidableEq, Repr

/-- Where a goroutine running `Take()` stands: before `atomic.LoadPointer`; after the load,
holding the loaded pointer; or returned, and then it keeps the pointer it had loaded, whether
its compare-and-swap succeeded, and the boolean it returned. -/
inductive takePhase where
  | start : takePhase
  | loaded (snap : pointer) : takePhase
  | returned (snap : pointer) (swapped : Bool) (ret : Bool) : takePhase
deriving DecidableEq, Repr

/-- The boolean a goroutine returned, if it has returned. -/
def takePhase.result : takePhase → Option Bool
  | .returned _ _ ret => some ret
  | _ => none

/-- The allocation a goroutine had loaded, if its compare-and-swap succeeded. -/
def takePhase.swappedFrom : takePhase → Option Nat
  | .returned snap true _ => some snap.ptr
  | _ => none

/-- Number of steps a goroutine has made: 0 before the load, 1 after it, 2 once returned. -/
def takePhase.rank : takePhase → Nat
  | .start => 0
  | .loaded _ => 1
  | .returned _ _ _ => 2

/-- Goroutines running `Take()` concurrently on one limiter: the shared pointer, the next
unused allocation, and the phase of each goroutine.  The operations of `sync/atomic` are
sequentially consistent, so an execution is an interleaving of the goroutines' steps. -/
structure world where
  shared : pointer
  fresh : Nat
  phase : Nat → takePhase

/-- One step of goroutine `i`, whose reading of `time.Now()` is `nows i`.  Its first step is
`atomic.LoadPointer`.  Its second step is the rest of `Take` on the loaded state: the
compare-and-swap, if one is made, succeeds exactly when the cell still holds the loaded
pointer, and then the cell points to a new allocation holding the new state. -/
def stepTake (l : atomicLimiter) (nows : Nat → Int) (w : world) (i : Nat) : world :=
  match w.phase i with
  | .start =>
    { shared := w.shared, fresh := w.fresh,
      phase := fun j => if j = i then .loaded w.shared else w.phase j }
  | .loaded snap =>
    let r := Take l snap.val (nows i) (decide (w.shared.ptr = snap.ptr))
    if r.cas.any (fun e => e.swapped) then
      { shared := { ptr := w.fresh, val := install w.shared.val r.cas },
        fresh := w.fresh + 1,
        phase := fun j => if j = i then .returned snap true r.ret else w.phase j }
    else
      { shared := w.shared, fresh := w.fresh,
        phase := fun j => if j = i then .returned snap false r.ret else w.phase j }
  | .returned _ _ _ => w

/-- An interleaving of `N` goroutines: the schedule names the goroutine that makes each step
(a name that is not below `N` makes no step). -/
def runSchedule (l : atomicLimiter) (nows : Nat → Int) (N : Nat) : world → List Nat → world
  | w, [] => w
  | w, i :: sched => runSchedule l nows N (if i < N then stepTake l nows w i else w) sched

/-- The goroutines before any of them has started, on a cell holding `S0`. -/
def initWorld (S0 : state) : world :=
  { shared := { ptr := 0, val := S0 }, fresh := 1, phase := fun _ => .start }

/-- Invariant of the interleavings on a fresh limiter within the first window: either no
compare-and-swap has succeeded, the cell is the initial one and no goroutine has returned; or
goroutine `a` has succeeded and returned true, the cell holds `{last: nows a, sleep_debt: 0}`
and every other goroutine has yet to return or has returned false. -/
def FirstWindowInv (nows : Nat → Int) (N : Nat) (w : world) : Prop :=
  w.fresh ≠ 0 ∧
  ((w.shared = { ptr := 0, val := { last := 0, sleepFor := 0 } } ∧
      ∀ i, i < N → w.phase i = .start ∨
        w.phase i = .loaded { ptr := 0, val := { last := 0, sleepFor := 0 } }) ∨
   (∃ a, a < N ∧ w.shared.ptr ≠ 0 ∧ w.shared.val = { last := nows a, sleepFor := 0 } ∧
      (w.phase a).result = some true ∧
      ∀ i, i < N → i ≠ a → w.phase i = .start ∨
        w.phase i = .loaded { ptr := 0, val := { last := 0, sleepFor := 0 } } ∨
        w.phase i = .loaded w.shared ∨ (w.phase i).result = some false))

/-- Invariant of every interleaving: allocations are handed out in increasing order, the
pointer a successful compare-and-swap replaced is older than the one in the cell, and no two
successful goroutines replaced the same one. -/
def FreshInv (w : world) : Prop :=
  w.shared.ptr < w.fresh ∧
  (∀ i q, (w.phase i).swappedFrom = some q → q < w.shared.ptr) ∧
  (∀ i j q, i ≠ j → (w.phase i).swappedFrom = some q → (w.phase j).swappedFrom ≠ some q)

/-- The states the shared cell can hold: the initial one, and every state installed by a
successful compare-and-swap of a `Take()` or of an iteration of `SpinTake()` whose snapshot
was itself a content of the cell.  Clock readings and swap outcomes are arbitrary. -/
inductive Reachable (l : atomicLimiter) (S0 : state) : state → Prop
  | init : Reachable l S0 S0
  | take (S : state) (now : Int) (wins : Bool) (e : casEvent) :
      Reachable l S0 S → e ∈ (Take l S now wins).cas → e.swapped = true →
      Reachable l S0 e.new
  | spinTake (inputs : Nat → spinInput) (maxSpin : Int) (timerFirst : Bool) (e : casEvent) :
      (∀ k, Reachable l S0 (inputs k).oldState) →
      e ∈ (SpinTake l inputs maxSpin timerFirst).cas → e.swapped = true →
      Reachable l S0 e.new

/-- The tentative debt of a call at `now` on snapshot `S`: the debt plus one request budget
minus the elapsed time, not below the burst floor (the claims' `new_debt`). -/
def newDebt (l : atomicLimiter) (S : state) (now : Int) : Int :=
  max l.maxBurst (S.sleepFor + l.perRequest - (now - S.last))

/-! ## Basic facts about `Take` -/

theorem newDebt_eq_clamp (l : atomicLimiter) (S : state) (now : Int) :
    (if S.sleepFor + (l.perRequest - (now - S.last)) < l.maxBurst then l.maxBurst
      else S.sleepFor + (l.perRequest - (now - S.last))) = newDebt l S now := by
  unfold newDebt
  split_ifs with h
  · rw [max_eq_left]; omega
  · rw [max_eq_right] <;> omega

theorem maxBurst_le_newDebt (l : atomicLimiter) (S : state) (now : Int) :
    l.maxBurst ≤ newDebt l S now := le_max_left _ _

theorem elapsed_le_newDebt (l : atomicLimiter) (S : state) (now : Int) :
    S.sleepFor + l.perRequest - (now - S.last) ≤ newDebt l S now := le_max_right _ _

theorem Take_first (l : atomicLimiter) (S : state) (now : Int) (wins : Bool)
    (hlast : S.last = 0) :
    Take l S now wins =
      { ret := wins,
        cas := [{ old := S, new := { last := now, sleepFor := S.sleepFor }, swapped := wins }] } := by
  simp [Take, hlast]

theorem Take_reject (l : atomicLimiter) (S : state) (now : Int) (wins : Bool)
    (hlast : S.last ≠ 0) (hd : 0 < newDebt l S now) :
    Take l S now wins = { ret := false, cas := [] } := by
  have hc := newDebt_eq_clamp l S now
  unfold Take
  simp only [hlast, if_false]
  split_ifs at hc ⊢ with h1 h2 h2 <;> simp_all

theorem Take_attempt (l : atomicLimiter) (S : state) (now : Int) (wins : Bool)
    (hlast : S.last ≠ 0) (hd : newDebt l S now ≤ 0) :
    Take l S now wins =
      { ret := wins,
        cas := [{ old := S, new := { last := now, sleepFor := newDebt l S now },
                  swapped := wins }] } := by
  have hc := newDebt_eq_clamp l S now
  unfold Take
  simp only [hlast, if_false]
  split_ifs at hc ⊢ with h1 h2 h2
  · simp at h2; omega
  · simp [hc]
  · simp at h2; omega
  · simp [hc]

theorem install_nil (cell : state) : install cell [] = cell := rfl

theorem install_single (cell : state) (e : casEvent) :
    install cell [e] = if e.swapped then e.new else cell := rfl

theorem runTake_nil (l : atomicLimiter) (S : state) : runTake l S [] = ([], S) := rfl

theorem runTake_cons (l : atomicLimiter) (S : state) (c : Int × Bool) (cs : List (Int × Bool)) :
    runTake l S (c :: cs) =
      ((Take l S c.1 c.2).ret :: (runTake l (install S (Take l S c.1 c.2).cas) cs).1,
       (runTake l (install S (Take l S c.1 c.2).cas) cs).2) := rfl

theorem runTake_append (l : atomicLimiter) (S : state) (cs ds : List (Int × Bool)) :
    runTake l S (cs ++ ds) =
      ((runTake l S cs).1 ++ (runTake l (runTake l S cs).2 ds).1,
       (runTake l (runTake l S cs).2 ds).2) := by
  induction cs generalizing S with
  | nil => simp [runTake_nil]
  | cons c cs ih => simp [runTake_cons, ih]

/-- A call that returns false leaves every cell as it is. -/
theorem install_of_ret_false (l : atomicLimiter) (S : state) (now : Int) (wins : Bool)
    (h : (Take l S now wins).ret = false) (cell : state) :
    install cell (Take l S now wins).cas = cell := by
  by_cases hlast : S.last = 0
  · rw [Take_first l S now wins hlast] at h ⊢
    simp at h
    simp [install, h]
  · rcases le_or_lt (newDebt l S now) 0 with hd | hd
    · rw [Take_attempt l S now wins hlast hd] at h ⊢
      simp at h
      simp [install, h]
    · rw [Take_reject l S now wins hlast hd]
      rfl

theorem writes_of_ret_false (l : atomicLimiter) (S : state) (now : Int) (wins : Bool)
    (h : (Take l S now wins).ret = false) :
    writes (Take l S now wins).cas = [] := by
  by_cases hlast : S.last = 0
  · rw [Take_first l S now wins hlast] at h ⊢
    simp at h
    simp [writes, h]
  · rcases le_or_lt (newDebt l S now) 0 with hd | hd
    · rw [Take_attempt l S now wins hlast hd] at h ⊢
      simp at h
      simp [writes, h]
    · rw [Take_reject l S now wins hlast hd]
      rfl

theorem runTake_all_false (l : atomicLimiter) (S : state) (cs : List (Int × Bool))
    (h : ∀ b ∈ (runTake l S cs).1, b = false) : (runTake l S cs).2 = S := by
  induction cs generalizing S with
  | nil => rfl
  | cons c cs ih =>
    rw [runTake_cons] at h ⊢
    have h1 : (Take l S c.1 c.2).ret = false := h _ (List.mem_cons_self _ _)
    have h2 := install_of_ret_false l S c.1 c.2 h1 S
    simp only [h2] at h ⊢
    exact ih S (fun b hb => h b (List.mem_cons_of_mem _ hb))

/-! ## Basic facts about the loop of `spinTakePointer` -/

theorem spinIter_first (l : atomicLimiter) (inp : spinInput) (v : spinVars)
    (hlast : inp.oldState.last = 0) :
    spinIter l inp v =
      { newState := { last := inp.now, sleepFor := inp.oldState.sleepFor },
        taken := inp.wins, interval := v.interval, iterations := v.iterations + 1,
        cas := v.cas ++ [{ old := inp.oldState,
                           new := { last := inp.now, sleepFor := inp.oldState.sleepFor },
                           swapped := inp.wins }] } := by
  simp [spinIter, hlast]

theorem spinIter_wait (l : atomicLimiter) (inp : spinInput) (v : spinVars)
    (hlast : inp.oldState.last ≠ 0) (hd : 0 < newDebt l inp.oldState inp.now) :
    spinIter l inp v =
      { newState := { last := inp.now + newDebt l inp.oldState inp.now, sleepFor := 0 },
        taken := inp.wins, interval := newDebt l inp.oldState inp.now,
        iterations := v.iterations + 1,
        cas := v.cas ++ [{ old := inp.oldState,
                           new := { last := inp.now + newDebt l inp.oldState inp.now,
                                    sleepFor := 0 },
                           swapped := inp.wins }] } := by
  have hc := newDebt_eq_clamp l inp.oldState inp.now
  unfold spinIter
  simp only [hlast, if_false]
  split_ifs at hc ⊢ with h1 h2 h2
  · simp [hc]
  · simp at h2; omega
  · simp [hc]
  · simp at h2; omega

theorem spinIter_go (l : atomicLimiter) (inp : spinInput) (v : spinVars)
    (hlast : inp.oldState.last ≠ 0) (hd : newDebt l inp.oldState inp.now ≤ 0) :
    spinIter l inp v =
      { newState := { last := inp.now, sleepFor := newDebt l inp.oldState inp.now },
        taken := inp.wins, interval := v.interval, iterations := v.iterations + 1,
        cas := v.cas ++ [{ old := inp.oldState,
                           new := { last := inp.now,
                                    sleepFor := newDebt l inp.oldState inp.now },
                           swapped := inp.wins }] } := by
  have hc := newDebt_eq_clamp l inp.oldState inp.now
  unfold spinIter
  simp only [hlast, if_false]
  split_ifs at hc ⊢ with h1 h2 h2
  · simp at h2; omega
  · simp [hc]
  · simp at h2; omega
  · simp [hc]

/-- The three ways an iteration can go. -/
theorem spinIter_cases (l : atomicLimiter) (inp : spinInput) (v : spinVars) :
    (inp.oldState.last = 0 ∧
      (spinIter l inp v).newState = { last := inp.now, sleepFor := inp.oldState.sleepFor } ∧
      (spinIter l inp v).interval = v.interval) ∨
    (inp.oldState.last ≠ 0 ∧ 0 < newDebt l inp.oldState inp.now ∧
      (spinIter l inp v).newState =
        { last := inp.now + newDebt l inp.oldState inp.now, sleepFor := 0 } ∧
      (spinIter l inp v).interval = newDebt l inp.oldState inp.now) ∨
    (inp.oldState.last ≠ 0 ∧ newDebt l inp.oldState inp.now ≤ 0 ∧
      (spinIter l inp v).newState =
        { last := inp.now, sleepFor := newDebt l inp.oldState inp.now } ∧
      (spinIter l inp v).interval = v.interval) := by
  by_cases hlast : inp.oldState.last = 0
  · left
    rw [spinIter_first l inp v hlast]
    exact ⟨hlast, rfl, rfl⟩
  · rcases lt_or_le 0 (newDebt l inp.oldState inp.now) with hd | hd
    · right; left
      rw [spinIter_wait l inp v hlast hd]
      exact ⟨hlast, hd, rfl, rfl⟩
    · right; right
      rw [spinIter_go l inp v hlast hd]
      exact ⟨hlast, hd, rfl, rfl⟩

theorem spinIter_taken (l : atomicLimiter) (inp : spinInput) (v : spinVars) :
    (spinIter l inp v).taken = inp.wins := by
  unfold spinIter
  dsimp only
  split_ifs <;> rfl

theorem spinIter_iterations (l : atomicLimiter) (inp : spinInput) (v : spinVars) :
    (spinIter l inp v).iterations = v.iterations + 1 := by
  unfold spinIter
  dsimp only
  split_ifs <;> rfl

theorem spinIter_cas (l : atomicLimiter) (inp : spinInput) (v : spinVars) :
    (spinIter l inp v).cas =
      v.cas ++ [{ old := inp.oldState, new := (spinIter l inp v).newState,
                  swapped := inp.wins }] := by
  unfold spinIter
  dsimp only
  split_ifs <;> rfl

theorem spinLoop_zero (l : atomicLimiter) (inputs : Nat → spinInput) (v : spinVars) :
    spinLoop l inputs 0 v = v := rfl

theorem spinLoop_taken (l : atomicLimiter) (inputs : Nat → spinInput) (n : Nat) (v : spinVars)
    (h : v.taken = true) : spinLoop l inputs n v = v := by
  cases n with
  | zero => rfl
  | succ n => simp [spinLoop, h]

theorem spinLoop_succ (l : atomicLimiter) (inputs : Nat → spinInput) (n : Nat) (v : spinVars)
    (h : v.taken = false) :
    spinLoop l inputs (n + 1) v = spinLoop l inputs n (spinIter l (inputs v.iterations) v) := by
  simp [spinLoop, h]

/-- The loop run from variables with `taken = false` and `maxTry = n`: either the next `n`
swaps all lose and it runs `n` iterations, or it stops right after the first winning one. -/
theorem spinLoop_spec (l : atomicLimiter) (inputs : Nat → spinInput) (n : Nat) (v : spinVars)
    (h : v.taken = false) :
    ((∀ j, j < n → (inputs (v.iterations + j)).wins = false) ∧
      (spinLoop l inputs n v).taken = false ∧
      (spinLoop l inputs n v).iterations = v.iterations + n ∧
      (spinLoop l inputs n v).cas.map casEvent.swapped =
        v.cas.map casEvent.swapped ++ List.replicate n false) ∨
    (∃ k, k < n ∧ (inputs (v.iterations + k)).wins = true ∧
      (∀ j, j < k → (inputs (v.iterations + j)).wins = false) ∧
      (spinLoop l inputs n v).taken = true ∧
      (spinLoop l inputs n v).iterations = v.iterations + k + 1 ∧
      (spinLoop l inputs n v).cas.map casEvent.swapped =
        v.cas.map casEvent.swapped ++ List.replicate k false ++ [true]) := by
  induction n generalizing v with
  | zero =>
    left
    simp [spinLoop_zero, h]
  | succ n ih =>
    rw [spinLoop_succ l inputs n v h]
    have ht := spinIter_taken l (inputs v.iterations) v
    have hi := spinIter_iterations l (inputs v.iterations) v
    have hc := spinIter_cas l (inputs v.iterations) v
    cases hw : (inputs v.iterations).wins with
    | true =>
      right
      rw [hw] at ht
      rw [spinLoop_taken l inputs n _ ht]
      refine ⟨0, Nat.succ_pos n, by simpa using hw, by simp, ht, by simpa using hi, ?_⟩
      rw [hc]
      simp [hw]
    | false =>
      rw [hw] at ht
      have hshift : ∀ j, (spinIter l (inputs v.iterations) v).iterations + j
          = v.iterations + (j + 1) := by
        intro j; rw [hi]; omega
      rcases ih _ ht with ⟨h1, h2, h3, h4⟩ | ⟨k, hk, h1, h2, h3, h4, h5⟩
      · left
        refine ⟨?_, h2, by rw [h3, hi]; omega, ?_⟩
        · intro j hj
          cases j with
          | zero => simpa using hw
          | succ j =>
            have := h1 j (by omega)
            rwa [hshift] at this
        · rw [h4, hc]
          simp [hw, List.replicate_succ]
      · right
        refine ⟨k + 1, by omega, by rwa [hshift] at h1, ?_, h3, by rw [h4, hi]; omega, ?_⟩
        · intro j hj
          cases j with
          | zero => simpa using hw
          | succ j =>
            have := h2 j (by omega)
            rwa [hshift] at this
        · rw [h5, hc]
          simp [hw, List.replicate_succ]

/-- Every compare-and-swap of the loop is one made before it or the one of an iteration on
some input. -/
theorem spinLoop_cas_mem (l : atomicLimiter) (inputs : Nat → spinInput) (n : Nat)
    (v : spinVars) (e : casEvent) (he : e ∈ (spinLoop l inputs n v).cas) :
    e ∈ v.cas ∨ ∃ k w, e = { old := (inputs k).oldState,
                             new := (spinIter l (inputs k) w).newState,
                             swapped := (inputs k).wins } := by
  induction n generalizing v with
  | zero => left; simpa [spinLoop_zero] using he
  | succ n ih =>
    cases ht : v.taken with
    | true =>
      rw [spinLoop_taken l inputs _ v ht] at he
      exact Or.inl he
    | false =>
      rw [spinLoop_succ l inputs n v ht] at he
      rcases ih _ he with h | h
      · rw [spinIter_cas] at h
        rcases List.mem_append.mp h with h | h
        · exact Or.inl h
        · right
          exact ⟨v.iterations, v, by simpa using h⟩
      · exact Or.inr h

theorem writes_length (log : List casEvent) :
    (writes log).length = (log.map casEvent.swapped).count true := by
  induction log with
  | nil => rfl
  | cons e log ih =>
    cases he : e.swapped <;> simp [writes, he, List.filter_cons] at ih ⊢ <;> omega

/-! ## Facts about the constructor and the reachable cells -/

theorem wrap64_of_range (x : Int) (h1 : -9223372036854775808 ≤ x)
    (h2 : x < 9223372036854775808) : wrap64 x = x := by
  unfold wrap64
  omega

theorem wrap64_range (x : Int) :
    -9223372036854775808 ≤ wrap64 x ∧ wrap64 x < 9223372036854775808 := by
  unfold wrap64
  omega

/-- For a non-negative burst and spacing the wrapped floor is never below the exact
`-max_burst * per_request`. -/
theorem mul64_floor (maxBurst p : Int) (hb : 0 ≤ maxBurst) (hp : 0 ≤ p) :
    -(maxBurst * p) ≤ mul64 (mul64 (-1) maxBurst) p := by
  have hx := wrap64_range (-1 * maxBurst)
  have hr := wrap64_range (wrap64 (-1 * maxBurst) * p)
  unfold mul64
  by_cases hbr : maxBurst ≤ 9223372036854775808
  · have hx0 : wrap64 (-1 * maxBurst) = -maxBurst := by
      unfold wrap64
      omega
    rw [hx0]
    have hprod : -maxBurst * p = -(maxBurst * p) := by ring
    rw [hprod]
    have hnn : 0 ≤ maxBurst * p := mul_nonneg hb hp
    by_cases hin : maxBurst * p ≤ 9223372036854775808
    · rw [wrap64_of_range _ (by omega) (by omega)]
    · have := wrap64_range (-(maxBurst * p))
      omega
  · rcases eq_or_lt_of_le hp with h0 | hpos
    · rw [← h0]
      simp only [mul_zero, neg_zero]
      rw [wrap64_of_range 0 (by norm_num) (by norm_num)]
    · have hge : maxBurst ≤ maxBurst * p := by nlinarith
      omega

/-- Without overflow the floor is the exact `-max_burst * per_request`. -/
theorem mul64_exact (maxBurst p : Int) (hb : 0 ≤ maxBurst) (hp : 0 ≤ p)
    (hov : maxBurst * p ≤ 9223372036854775808) :
    mul64 (mul64 (-1) maxBurst) p = -1 * maxBurst * p := by
  unfold mul64
  rcases eq_or_lt_of_le hp with h0 | hpos
  · rw [← h0]
    simp only [mul_zero]
    exact wrap64_of_range 0 (by norm_num) (by norm_num)
  · have hge : maxBurst ≤ maxBurst * p := by nlinarith
    have hx0 : wrap64 (-1 * maxBurst) = -1 * maxBurst := by
      apply wrap64_of_range <;> omega
    rw [hx0]
    have hnn : 0 ≤ maxBurst * p := mul_nonneg hb hp
    have hprod : -1 * maxBurst * p = -(maxBurst * p) := by ring
    rw [hprod]
    apply wrap64_of_range <;> omega

theorem div64_of_pos (a b : Int) (hb : 1 ≤ b) : div64 a b = Int.tdiv a b := by
  unfold div64
  rw [if_neg]
  omega

theorem New_eq_some (rate maxBurst duration : Int) (l : atomicLimiter) (S0 : state)
    (hnew : New rate maxBurst duration = some (l, S0)) :
    rate ≠ 0 ∧ l.perRequest = div64 duration rate ∧
    l.maxBurst = mul64 (mul64 (-1) maxBurst) l.perRequest ∧
    S0 = { last := 0, sleepFor := 0 } := by
  unfold New newAtomicBased at hnew
  split_ifs at hnew with h
  simp only [Option.some.injEq, Prod.mk.injEq] at hnew
  obtain ⟨hl, hS⟩ := hnew
  subst hl hS
  exact ⟨h, rfl, rfl, rfl⟩

/-- The state a `Take` can install. -/
theorem Take_cas_mem (l : atomicLimiter) (S : state) (now : Int) (wins : Bool) (e : casEvent)
    (he : e ∈ (Take l S now wins).cas) :
    e.old = S ∧ e.swapped = wins ∧
    ((S.last = 0 ∧ e.new = { last := now, sleepFor := S.sleepFor }) ∨
     (S.last ≠ 0 ∧ newDebt l S now ≤ 0 ∧
       e.new = { last := now, sleepFor := newDebt l S now })) := by
  by_cases hlast : S.last = 0
  · rw [Take_first l S now wins hlast] at he
    simp only [List.mem_singleton] at he
    subst he
    exact ⟨rfl, rfl, Or.inl ⟨hlast, rfl⟩⟩
  · rcases le_or_lt (newDebt l S now) 0 with hd | hd
    · rw [Take_attempt l S now wins hlast hd] at he
      simp only [List.mem_singleton] at he
      subst he
      exact ⟨rfl, rfl, Or.inr ⟨hlast, hd, rfl⟩⟩
    · rw [Take_reject l S now wins hlast hd] at he
      cases he

theorem SpinTake_cas (l : atomicLimiter) (inputs : Nat → spinInput) (maxSpin : Int)
    (timerFirst : Bool) :
    (SpinTake l inputs maxSpin timerFirst).cas = (spinTakePointer l inputs).cas := rfl

/-- The state an iteration of `spinTakePointer` can install. -/
theorem spinTakePointer_cas_mem (l : atomicLimiter) (inputs : Nat → spinInput) (e : casEvent)
    (he : e ∈ (spinTakePointer l inputs).cas) :
    ∃ k, e.old = (inputs k).oldState ∧ e.swapped = (inputs k).wins ∧
      (((inputs k).oldState.last = 0 ∧
          e.new = { last := (inputs k).now, sleepFor := (inputs k).oldState.sleepFor }) ∨
       ((inputs k).oldState.last ≠ 0 ∧ 0 < newDebt l (inputs k).oldState (inputs k).now ∧
          e.new = { last := (inputs k).now + newDebt l (inputs k).oldState (inputs k).now,
                    sleepFor := 0 }) ∨
       ((inputs k).oldState.last ≠ 0 ∧ newDebt l (inputs k).oldState (inputs k).now ≤ 0 ∧
          e.new = { last := (inputs k).now,
                    sleepFor := newDebt l (inputs k).oldState (inputs k).now })) := by
  rcases spinLoop_cas_mem l inputs 5 _ e he with h | ⟨k, w, h⟩
  · cases h
  · subst h
    refine ⟨k, rfl, rfl, ?_⟩
    rcases spinIter_cases l (inputs k) w with ⟨h1, h2, _⟩ | ⟨h1, h2, h3, _⟩ | ⟨h1, h2, h3, _⟩
    · exact Or.inl ⟨h1, h2⟩
    · exact Or.inr (Or.inl ⟨h1, h2, h3⟩)
    · exact Or.inr (Or.inr ⟨h1, h2, h3⟩)

/-- The debt stored in the cell never goes below the burst floor, when the floor is not
positive and the initial debt respects it. -/
theorem Reachable.maxBurst_le (l : atomicLimiter) (S0 S : state) (hmb : l.maxBurst ≤ 0)
    (h0 : l.maxBurst ≤ S0.sleepFor) (h : Reachable l S0 S) : l.maxBurst ≤ S.sleepFor := by
  induction h with
  | init => exact h0
  | take S now wins e _ he _ ih =>
    rcases (Take_cas_mem l S now wins e he).2.2 with ⟨_, hn⟩ | ⟨_, _, hn⟩
    · rw [hn]; exact ih
    · rw [hn]; exact maxBurst_le_newDebt l S now
  | spinTake inputs maxSpin timerFirst e _ he _ ih =>
    rw [SpinTake_cas] at he
    obtain ⟨k, _, _, hk⟩ := spinTakePointer_cas_mem l inputs e he
    rcases hk with ⟨_, hn⟩ | ⟨_, _, hn⟩ | ⟨_, _, hn⟩
    · rw [hn]; exact ih k
    · rw [hn]; exact hmb
    · rw [hn]; exact maxBurst_le_newDebt l _ _

/-- The debt stored in the cell is never positive. -/
theorem Reachable.sleepFor_le_zero (l : atomicLimiter) (S0 S : state)
    (h0 : S0.sleepFor ≤ 0) (h : Reachable l S0 S) : S.sleepFor ≤ 0 := by
  induction h with
  | init => exact h0
  | take S now wins e _ he _ ih =>
    rcases (Take_cas_mem l S now wins e he).2.2 with ⟨_, hn⟩ | ⟨_, hd, hn⟩
    · rw [hn]; exact ih
    · rw [hn]; exact hd
  | spinTake inputs maxSpin timerFirst e _ he _ ih =>
    rw [SpinTake_cas] at he
    obtain ⟨k, _, _, hk⟩ := spinTakePointer_cas_mem l inputs e he
    rcases hk with ⟨_, hn⟩ | ⟨_, _, hn⟩ | ⟨_, hd, hn⟩
    · rw [hn]; exact ih k
    · rw [hn]
    · rw [hn]; exact hd

/-! ## Sequential uncontended runs -/

/-- The three outcomes of an uncontended `Take`. -/
theorem Take_step (l : atomicLimiter) (S : state) (t : Int) :
    (S.last = 0 ∧ (Take l S t true).ret = true ∧
      install S (Take l S t true).cas = { last := t, sleepFor := S.sleepFor }) ∨
    (S.last ≠ 0 ∧ newDebt l S t ≤ 0 ∧ (Take l S t true).ret = true ∧
      install S (Take l S t true).cas = { last := t, sleepFor := newDebt l S t }) ∨
    (S.last ≠ 0 ∧ 0 < newDebt l S t ∧ (Take l S t true).ret = false ∧
      install S (Take l S t true).cas = S) := by
  by_cases hlast : S.last = 0
  · left
    rw [Take_first l S t true hlast]
    exact ⟨hlast, rfl, rfl⟩
  · rcases le_or_lt (newDebt l S t) 0 with hd | hd
    · right; left
      rw [Take_attempt l S t true hlast hd]
      exact ⟨hlast, hd, rfl, rfl⟩
    · right; right
      rw [Take_reject l S t true hlast hd]
      exact ⟨hlast, hd, rfl, rfl⟩

theorem runTakeNow_nil (l : atomicLimiter) (S : state) : runTakeNow l S [] = ([], S) := rfl

theorem runTakeNow_cons (l : atomicLimiter) (S : state) (t : Int) (ts : List Int) :
    runTakeNow l S (t :: ts) =
      ((Take l S t true).ret :: (runTakeNow l (install S (Take l S t true).cas) ts).1,
       (runTakeNow l (install S (Take l S t true).cas) ts).2) := rfl

/-- Back-to-back calls at one instant `t` are all admitted while the debt allows it. -/
theorem runTakeNow_replicate_true (l : atomicLimiter) (t : Int) (hp : 0 < l.perRequest)
    (n : Nat) (S : state)
    (h : (t = 0 ∧ S.last = 0) ∨
      (S.last ≠ 0 ∧ newDebt l S t + (n : Int) * l.perRequest ≤ l.perRequest)) :
    (runTakeNow l S (List.replicate n t)).1 = List.replicate n true := by
  induction n generalizing S with
  | zero => rfl
  | succ n ih =>
    rw [List.replicate_succ, runTakeNow_cons, List.replicate_succ]
    have hn : (0 : Int) ≤ (n : Int) * l.perRequest :=
      mul_nonneg (Int.ofNat_nonneg n) (le_of_lt hp)
    rcases h with ⟨ht, hl⟩ | ⟨hl, hd⟩
    · rcases Take_step l S t with ⟨_, h1, h2⟩ | ⟨h0, _⟩ | ⟨h0, _⟩
      · simp only [h1, h2]
        rw [ih _ (Or.inl ⟨ht, ht⟩)]
      · exact absurd hl h0
      · exact absurd hl h0
    · push_cast at hd
      rw [add_mul, one_mul] at hd
      rcases Take_step l S t with ⟨h0, _⟩ | ⟨_, _, h1, h2⟩ | ⟨_, h0, _⟩
      · exact absurd h0 hl
      · simp only [h1, h2]
        by_cases ht : t = 0
        · rw [ih _ (Or.inl ⟨ht, ht⟩)]
        · rw [ih _ (Or.inr ⟨ht, ?_⟩)]
          have hmb := maxBurst_le_newDebt l S t
          have : newDebt l { last := t, sleepFor := newDebt l S t } t
              = newDebt l S t + l.perRequest := by
            unfold newDebt at hmb ⊢
            simp only [sub_self, sub_zero]
            rw [max_eq_right]
            omega
          rw [this]
          omega
      · omega

/-- Once a call at `t` is rejected, every further call at `t` is. -/
theorem runTakeNow_replicate_false (l : atomicLimiter) (t : Int) (n : Nat) (S : state)
    (h : (Take l S t true).ret = false) :
    (runTakeNow l S (List.replicate n t)).1 = List.replicate n false := by
  induction n with
  | zero => rfl
  | succ n ih =>
    rw [List.replicate_succ, runTakeNow_cons, List.replicate_succ,
      install_of_ret_false l S t true h S, ih, h]

/-- From a cell whose `last` is the non-zero instant `t` and whose debt is above
`-(m+1) * per_request`, at most `m` further calls at `t` are admitted, all before the first
rejection. -/
theorem runTakeNow_replicate_shape (l : atomicLimiter) (t : Int) (hp : 0 < l.perRequest)
    (ht : t ≠ 0) (n : Nat) (m : Nat) (S : state) (hl : S.last = t)
    (hmb : l.maxBurst ≤ S.sleepFor)
    (hm : 0 < S.sleepFor + ((m : Int) + 1) * l.perRequest) :
    ∃ k, k ≤ m ∧ k ≤ n ∧
      (runTakeNow l S (List.replicate n t)).1 =
        List.replicate k true ++ List.replicate (n - k) false := by
  induction n generalizing m S with
  | zero => exact ⟨0, Nat.zero_le _, Nat.zero_le _, rfl⟩
  | succ n ih =>
    have hnd : newDebt l S t = S.sleepFor + l.perRequest := by
      unfold newDebt
      rw [hl, sub_self, sub_zero, max_eq_right]
      omega
    have hlast : S.last ≠ 0 := by rw [hl]; exact ht
    rcases Take_step l S t with ⟨h0, _⟩ | ⟨_, hd, h1, h2⟩ | ⟨_, hd, h1, _⟩
    · exact absurd h0 hlast
    · rw [List.replicate_succ, runTakeNow_cons]
      simp only [h1, h2]
      rw [hnd] at hd ⊢
      cases m with
      | zero =>
        simp at hm
        omega
      | succ m =>
        obtain ⟨k, hk1, hk2, hk3⟩ := ih m { last := t, sleepFor := S.sleepFor + l.perRequest }
          rfl (by simp only; omega) (by
            push_cast at hm
            simp only
            linarith)
        refine ⟨k + 1, by omega, by omega, ?_⟩
        rw [hk3, List.replicate_succ]
        simp
    · refine ⟨0, Nat.zero_le _, Nat.zero_le _, ?_⟩
      rw [runTakeNow_replicate_false l t (n + 1) S h1]
      simp

/-! ## Admitted instants of a sequential run -/

theorem admitted_nil (l : atomicLimiter) (S : state) : admitted l S [] = [] := rfl

theorem admitted_cons_true (l : atomicLimiter) (S : state) (t : Int) (ts : List Int)
    (h : (Take l S t true).ret = true) :
    admitted l S (t :: ts) = t :: admitted l (install S (Take l S t true).cas) ts := by
  simp [admitted, runTakeNow_cons, h]

theorem admitted_cons_false (l : atomicLimiter) (S : state) (t : Int) (ts : List Int)
    (h : (Take l S t true).ret = false) :
    admitted l S (t :: ts) = admitted l S ts := by
  simp [admitted, runTakeNow_cons, h, install_of_ret_false l S t true h S]

/-- From a cell with non-zero `last`, the admitted instant of index `j` is at least
`sleep_debt + (j + 1) * per_request` after `last`. -/
theorem admitted_spacing_from (l : atomicLimiter) (nows : List Int)
    (hnz : ∀ t ∈ nows, t ≠ 0) (S : state) (hlast : S.last ≠ 0) (j : Nat) (tj : Int)
    (hj : (admitted l S nows)[j]? = some tj) :
    S.sleepFor + ((j : Int) + 1) * l.perRequest ≤ tj - S.last := by
  induction nows generalizing S j with
  | nil => simp [admitted_nil] at hj
  | cons t ts ih =>
    have ht : t ≠ 0 := hnz t (List.mem_cons_self _ _)
    have hts : ∀ x ∈ ts, x ≠ 0 := fun x hx => hnz x (List.mem_cons_of_mem _ hx)
    rcases Take_step l S t with ⟨h0, _⟩ | ⟨_, hd, h1, h2⟩ | ⟨_, _, h1, _⟩
    · exact absurd h0 hlast
    · rw [admitted_cons_true l S t ts h1, h2] at hj
      have hel := elapsed_le_newDebt l S t
      cases j with
      | zero =>
        simp only [List.getElem?_cons_zero, Option.some.injEq] at hj
        subst hj
        simp only [Nat.cast_zero, zero_add, one_mul]
        omega
      | succ j =>
        simp only [List.getElem?_cons_succ] at hj
        have := ih hts { last := t, sleepFor := newDebt l S t } ht j hj
        simp only at this
        push_cast
        linarith
    · rw [admitted_cons_false l S t ts h1] at hj
      exact ih hts S hlast j hj

/-- Counting form of the spacing: from a cell with non-zero `last`, if `m ≥ 1` admitted
instants are at most `ub`, then `sleep_debt + m * per_request ≤ ub - last`. -/
theorem admitted_count_from (l : atomicLimiter) (hp : 0 < l.perRequest) (ub : Int)
    (nows : List Int) (hnz : ∀ t ∈ nows, t ≠ 0) (S : state) (hlast : S.last ≠ 0)
    (hm : 1 ≤ (admitted l S nows).countP (fun x => decide (x ≤ ub))) :
    S.sleepFor + (((admitted l S nows).countP (fun x => decide (x ≤ ub)) : Nat) : Int)
      * l.perRequest ≤ ub - S.last := by
  induction nows generalizing S with
  | nil => simp [admitted_nil] at hm
  | cons t ts ih =>
    have ht : t ≠ 0 := hnz t (List.mem_cons_self _ _)
    have hts : ∀ x ∈ ts, x ≠ 0 := fun x hx => hnz x (List.mem_cons_of_mem _ hx)
    rcases Take_step l S t with ⟨h0, _⟩ | ⟨_, hd, h1, h2⟩ | ⟨_, _, h1, _⟩
    · exact absurd h0 hlast
    · rw [admitted_cons_true l S t ts h1, h2] at hm ⊢
      have hel := elapsed_le_newDebt l S t
      have hih := ih hts { last := t, sleepFor := newDebt l S t } ht
      simp only at hih
      rw [List.countP_cons] at hm ⊢
      rcases Nat.eq_zero_or_pos
        ((admitted l { last := t, sleepFor := newDebt l S t } ts).countP
          (fun x => decide (x ≤ ub))) with h0 | hpos
      · rw [h0] at hm ⊢
        by_cases htu : t ≤ ub
        · simp only [htu, decide_True, if_true, Nat.zero_add, Nat.cast_one, one_mul]
          omega
        · simp [htu] at hm
      · have := hih hpos
        by_cases htu : t ≤ ub
        · simp only [htu, decide_True, if_true]
          push_cast
          linarith
        · simp only [htu, decide_False, Bool.false_eq_true, if_false, Nat.add_zero]
          linarith
    · rw [admitted_cons_false l S t ts h1] at hm ⊢
      exact ih hts S hlast hm

/-! ## Further facts about the constructor, `Take` and the loop -/

theorem New_valid (rate maxBurst duration : Int) (hrate : 1 ≤ rate) (hburst : 0 ≤ maxBurst)
    (hdur : 0 ≤ duration) :
    ∃ l S0, New rate maxBurst duration = some (l, S0) ∧
      l.perRequest = Int.tdiv duration rate ∧ 0 ≤ l.perRequest ∧
      -(maxBurst * l.perRequest) ≤ l.maxBurst ∧
      (maxBurst * l.perRequest ≤ 9223372036854775808 →
        l.maxBurst = -1 * maxBurst * l.perRequest ∧ l.maxBurst ≤ 0) ∧
      S0 = { last := 0, sleepFor := 0 } := by
  have hsome : ∃ l S0, New rate maxBurst duration = some (l, S0) := by
    unfold New newAtomicBased
    rw [if_neg (by omega)]
    exact ⟨_, _, rfl⟩
  obtain ⟨l, S0, hnew⟩ := hsome
  obtain ⟨_, hp, hm, hS⟩ := New_eq_some rate maxBurst duration l S0 hnew
  rw [div64_of_pos duration rate hrate] at hp
  have hp0 : 0 ≤ l.perRequest := by
    rw [hp]
    exact Int.tdiv_nonneg hdur (by omega)
  refine ⟨l, S0, hnew, hp, hp0, ?_, ?_, hS⟩
  · rw [hm]
    exact mul64_floor maxBurst l.perRequest hburst hp0
  · intro hov
    have hex := mul64_exact maxBurst l.perRequest hburst hp0 hov
    rw [← hm] at hex
    refine ⟨hex, ?_⟩
    rw [hex]
    have := mul_nonneg hburst hp0
    linarith

/-- On a snapshot with non-zero `last`, an uncontended `Take` is admitted exactly when the
tentative debt is not positive. -/
theorem Take_ret_iff (l : atomicLimiter) (S : state) (t : Int) (hlast : S.last ≠ 0) :
    (Take l S t true).ret = true ↔ newDebt l S t ≤ 0 := by
  rcases le_or_lt (newDebt l S t) 0 with hd | hd
  · rw [Take_attempt l S t true hlast hd]
    simp [hd]
  · rw [Take_reject l S t true hlast hd]
    simp
    exact hd

theorem newDebt_antitone (l : atomicLimiter) (S : state) (t t' : Int) (h : t ≤ t') :
    newDebt l S t' ≤ newDebt l S t := by
  unfold newDebt
  apply max_le_max (le_refl _)
  omega

theorem writes_append (a b : List casEvent) : writes (a ++ b) = writes a ++ writes b := by
  simp [writes]

theorem spinIter_newState_indep (l : atomicLimiter) (inp : spinInput) (v w : spinVars) :
    (spinIter l inp v).newState = (spinIter l inp w).newState := by
  by_cases hlast : inp.oldState.last = 0
  · rw [spinIter_first l inp v hlast, spinIter_first l inp w hlast]
  · rcases lt_or_le 0 (newDebt l inp.oldState inp.now) with hd | hd
    · rw [spinIter_wait l inp v hlast hd, spinIter_wait l inp w hlast hd]
    · rw [spinIter_go l inp v hlast hd, spinIter_go l inp w hlast hd]

/-- The loop when the swap of relative index `k` is the first to win: it returns with the
variables left by that iteration, and its one write is the state that iteration built. -/
theorem spinLoop_first_win (l : atomicLimiter) (inputs : Nat → spinInput) (n : Nat)
    (v : spinVars) (k : Nat) (h : v.taken = false) (hk : k < n)
    (hw : (inputs (v.iterations + k)).wins = true)
    (hl : ∀ j, j < k → (inputs (v.iterations + j)).wins = false) :
    (spinLoop l inputs n v).taken = true ∧
    (spinLoop l inputs n v).newState = (spinIter l (inputs (v.iterations + k)) v).newState ∧
    writes (spinLoop l inputs n v).cas =
      writes v.cas ++ [(spinIter l (inputs (v.iterations + k)) v).newState] := by
  induction n generalizing v k with
  | zero => omega
  | succ n ih =>
    rw [spinLoop_succ l inputs n v h]
    have ht := spinIter_taken l (inputs v.iterations) v
    have hi := spinIter_iterations l (inputs v.iterations) v
    have hc := spinIter_cas l (inputs v.iterations) v
    cases k with
    | zero =>
      have hw0 : (inputs v.iterations).wins = true := by simpa using hw
      rw [hw0] at ht
      rw [spinLoop_taken l inputs n _ ht]
      refine ⟨ht, by simp, ?_⟩
      rw [hc, writes_append]
      simp [writes, hw0]
    | succ k =>
      have hw0 : (inputs v.iterations).wins = false := by simpa using hl 0 (Nat.succ_pos k)
      rw [hw0] at ht
      have hshift : ∀ j, (spinIter l (inputs v.iterations) v).iterations + j
          = v.iterations + (j + 1) := by
        intro j; rw [hi]; omega
      obtain ⟨h1, h2, h3⟩ := ih (spinIter l (inputs v.iterations) v) k ht (by omega)
        (by rw [hshift]; exact hw)
        (fun j hj => by rw [hshift]; exact hl (j + 1) (by omega))
      rw [hshift] at h2 h3
      refine ⟨h1, ?_, ?_⟩
      · rw [h2]
        exact spinIter_newState_indep l _ _ _
      · rw [h3, hc, writes_append]
        rw [spinIter_newState_indep l (inputs (v.iterations + (k + 1))) _ v]
        simp [writes, hw0]

/-- With `per_request = 0` and `max_burst_debt = 0`, an uncontended `Take` on a cell whose debt
is not positive and whose `last` is zero or not after the reading is admitted, and leaves a
debt that is not positive. -/
theorem Take_no_spacing (l : atomicLimiter) (hp : l.perRequest = 0) (hm : l.maxBurst = 0)
    (S : state) (t : Int) (hs : S.sleepFor ≤ 0) (hS : S.last = 0 ∨ S.last ≤ t) :
    (Take l S t true).ret = true ∧
    (install S (Take l S t true).cas).last = t ∧
    (install S (Take l S t true).cas).sleepFor ≤ 0 := by
  rcases Take_step l S t with ⟨_, h1, h2⟩ | ⟨_, hd, h1, h2⟩ | ⟨hlast, hd, _, _⟩
  · rw [h2]
    exact ⟨h1, rfl, hs⟩
  · rw [h2]
    exact ⟨h1, rfl, hd⟩
  · exfalso
    rcases hS with h0 | hle
    · exact hlast h0
    · unfold newDebt at hd
      rw [hp, hm] at hd
      rcases max_cases (0 : Int) (S.sleepFor + 0 - (t - S.last)) with ⟨h, _⟩ | ⟨h, _⟩ <;>
        rw [h] at hd <;> omega

theorem runTakeNow_no_spacing (l : atomicLimiter) (hp : l.perRequest = 0)
    (hm : l.maxBurst = 0) (nows : List Int) (hsorted : nows.Pairwise (fun a b => a ≤ b))
    (S : state) (hs : S.sleepFor ≤ 0) (hS : S.last = 0 ∨ ∀ t ∈ nows, S.last ≤ t) :
    (runTakeNow l S nows).1 = List.replicate nows.length true := by
  induction nows generalizing S with
  | nil => rfl
  | cons t ts ih =>
    rw [List.pairwise_cons] at hsorted
    have hSt : S.last = 0 ∨ S.last ≤ t := by
      rcases hS with h | h
      · exact Or.inl h
      · exact Or.inr (h t (List.mem_cons_self _ _))
    obtain ⟨h1, h2, h3⟩ := Take_no_spacing l hp hm S t hs hSt
    rw [runTakeNow_cons, List.length_cons, List.replicate_succ, h1,
      ih hsorted.2 _ h3 (Or.inr (by rw [h2]; exact hsorted.1))]

/-! ## Sequential uncontended runs of `SpinTake` -/

theorem spinTakePointer_uncontended (l : atomicLimiter) (S : state) (now : Int) :
    spinTakePointer l (uncontended S now) =
      { ret := true,
        slept := some (spinIter l { oldState := S, now := now, wins := true }
          { newState := { last := 0, sleepFor := 0 }, taken := false, interval := 0,
            iterations := 0, cas := [] }).interval,
        iterations := 1,
        cas := [{ old := S,
                  new := (spinIter l { oldState := S, now := now, wins := true }
                    { newState := { last := 0, sleepFor := 0 }, taken := false, interval := 0,
                      iterations := 0, cas := [] }).newState,
                  swapped := true }] } := by
  have ht := spinIter_taken l { oldState := S, now := now, wins := true }
    { newState := { last := 0, sleepFor := 0 }, taken := false, interval := 0,
      iterations := 0, cas := [] }
  have hi := spinIter_iterations l { oldState := S, now := now, wins := true }
    { newState := { last := 0, sleepFor := 0 }, taken := false, interval := 0,
      iterations := 0, cas := [] }
  have hc := spinIter_cas l { oldState := S, now := now, wins := true }
    { newState := { last := 0, sleepFor := 0 }, taken := false, interval := 0,
      iterations := 0, cas := [] }
  unfold spinTakePointer
  rw [spinLoop_succ l _ 4 _ rfl]
  simp only [uncontended]
  rw [spinLoop_taken l _ 4 _ ht, ht, hi, hc]
  simp

/-- The three outcomes of an uncontended `SpinTake`: what it sleeps and what it installs. -/
theorem SpinTake_step (l : atomicLimiter) (S : state) (now maxSpin : Int) (timerFirst : Bool) :
    (S.last = 0 ∧ releaseOf l S now = now ∧
      install S (SpinTake l (uncontended S now) maxSpin timerFirst).cas =
        { last := now, sleepFor := S.sleepFor }) ∨
    (S.last ≠ 0 ∧ 0 < newDebt l S now ∧ releaseOf l S now = now + newDebt l S now ∧
      install S (SpinTake l (uncontended S now) maxSpin timerFirst).cas =
        { last := now + newDebt l S now, sleepFor := 0 }) ∨
    (S.last ≠ 0 ∧ newDebt l S now ≤ 0 ∧ releaseOf l S now = now ∧
      install S (SpinTake l (uncontended S now) maxSpin timerFirst).cas =
        { last := now, sleepFor := newDebt l S now }) := by
  rw [SpinTake_cas]
  unfold releaseOf
  rw [spinTakePointer_uncontended]
  by_cases hlast : S.last = 0
  · left
    rw [spinIter_first l { oldState := S, now := now, wins := true } _ hlast]
    exact ⟨hlast, by simp, by simp [install]⟩
  · rcases lt_or_le 0 (newDebt l S now) with hd | hd
    · right; left
      rw [spinIter_wait l { oldState := S, now := now, wins := true } _ hlast hd]
      exact ⟨hlast, hd, by simp, by simp [install]⟩
    · right; right
      rw [spinIter_go l { oldState := S, now := now, wins := true } _ hlast hd]
      exact ⟨hlast, hd, by simp, by simp [install]⟩

/-- What one uncontended `SpinTake` does to the cell, in terms of its release instant `r`:
the new `last` is `r`; from a non-zero `last` the new debt `c` lies between the floor and 0
and `r` is at least `sleep_debt + per_request - c` after the old `last`. -/
theorem SpinTake_release (l : atomicLimiter) (S : state) (now maxSpin : Int)
    (timerFirst : Bool) :
    (install S (SpinTake l (uncontended S now) maxSpin timerFirst).cas).last =
      releaseOf l S now ∧
    now ≤ releaseOf l S now ∧
    (S.last = 0 →
      (install S (SpinTake l (uncontended S now) maxSpin timerFirst).cas).sleepFor
        = S.sleepFor) ∧
    (S.last ≠ 0 → l.maxBurst ≤ 0 →
      (install S (SpinTake l (uncontended S now) maxSpin timerFirst).cas).sleepFor ≤ 0 ∧
      l.maxBurst ≤
        (install S (SpinTake l (uncontended S now) maxSpin timerFirst).cas).sleepFor ∧
      S.sleepFor + l.perRequest -
        (install S (SpinTake l (uncontended S now) maxSpin timerFirst).cas).sleepFor
        ≤ releaseOf l S now - S.last) := by
  rcases SpinTake_step l S now maxSpin timerFirst with
    ⟨h0, hr, hi⟩ | ⟨h0, hd, hr, hi⟩ | ⟨h0, hd, hr, hi⟩
  · rw [hr, hi]
    exact ⟨rfl, le_refl _, fun _ => rfl, fun h => absurd h0 h⟩
  · rw [hr, hi]
    refine ⟨rfl, by omega, fun h => absurd h h0, fun _ hmb => ⟨le_refl _, hmb, ?_⟩⟩
    simp only
    have : newDebt l S now = S.sleepFor + l.perRequest - (now - S.last) := by
      unfold newDebt at hd ⊢
      rcases max_cases l.maxBurst (S.sleepFor + l.perRequest - (now - S.last)) with
        ⟨h, _⟩ | ⟨h, _⟩
      · rw [h] at hd; omega
      · exact h
    omega
  · rw [hr, hi]
    refine ⟨rfl, le_refl _, fun h => absurd h h0,
      fun _ _ => ⟨hd, maxBurst_le_newDebt l S now, ?_⟩⟩
    have := elapsed_le_newDebt l S now
    simp only
    omega

theorem runSpinTake_nil (l : atomicLimiter) (S : state) : runSpinTake l S [] = ([], S) := rfl

theorem runSpinTake_cons (l : atomicLimiter) (S : state) (c : Int × Int × Bool)
    (cs : List (Int × Int × Bool)) :
    runSpinTake l S (c :: cs) =
      (((SpinTake l (uncontended S c.1) c.2.1 c.2.2).ret, releaseOf l S c.1) ::
        (runSpinTake l (install S (SpinTake l (uncontended S c.1) c.2.1 c.2.2).cas) cs).1,
       (runSpinTake l (install S (SpinTake l (uncontended S c.1) c.2.1 c.2.2).cas) cs).2) :=
  rfl

theorem releases_nil (l : atomicLimiter) (S : state) : releases l S [] = [] := rfl

theorem releases_cons (l : atomicLimiter) (S : state) (c : Int × Int × Bool)
    (cs : List (Int × Int × Bool)) :
    releases l S (c :: cs) =
      releaseOf l S c.1 ::
        releases l (install S (SpinTake l (uncontended S c.1) c.2.1 c.2.2).cas) cs := rfl

/-- From a cell with non-zero `last`, the release instant of index `j` is at least
`sleep_debt + (j + 1) * per_request` after `last`. -/
theorem releases_spacing_from (l : atomicLimiter) (hmb : l.maxBurst ≤ 0)
    (calls : List (Int × Int × Bool)) (hpos : ∀ c ∈ calls, 0 < c.1) (S : state)
    (hlast : S.last ≠ 0) (j : Nat) (rj : Int) (hj : (releases l S calls)[j]? = some rj) :
    S.sleepFor + ((j : Int) + 1) * l.perRequest ≤ rj - S.last := by
  induction calls generalizing S j with
  | nil => simp [releases_nil] at hj
  | cons c cs ih =>
    have hc : 0 < c.1 := hpos c (List.mem_cons_self _ _)
    have hcs : ∀ x ∈ cs, 0 < x.1 := fun x hx => hpos x (List.mem_cons_of_mem _ hx)
    obtain ⟨h1, h2, _, h4⟩ := SpinTake_release l S c.1 c.2.1 c.2.2
    obtain ⟨h5, _, h7⟩ := h4 hlast hmb
    rw [releases_cons] at hj
    cases j with
    | zero =>
      simp only [List.getElem?_cons_zero, Option.some.injEq] at hj
      subst hj
      simp only [Nat.cast_zero, zero_add, one_mul]
      omega
    | succ j =>
      simp only [List.getElem?_cons_succ] at hj
      have := ih hcs _ (by rw [h1]; omega) j hj
      rw [h1] at this
      push_cast
      linarith

/-- Counting form of the spacing of release instants: from a cell with non-zero `last`, if
`m ≥ 1` release instants are at most `ub`, then `sleep_debt + m * per_request ≤ ub - last`. -/
theorem releases_count_from (l : atomicLimiter) (hp : 0 < l.perRequest)
    (hmb : l.maxBurst ≤ 0) (ub : Int) (calls : List (Int × Int × Bool))
    (hpos : ∀ c ∈ calls, 0 < c.1) (S : state) (hlast : S.last ≠ 0)
    (hm : 1 ≤ (releases l S calls).countP (fun x => decide (x ≤ ub))) :
    S.sleepFor + (((releases l S calls).countP (fun x => decide (x ≤ ub)) : Nat) : Int)
      * l.perRequest ≤ ub - S.last := by
  induction calls generalizing S with
  | nil => simp [releases_nil] at hm
  | cons c cs ih =>
    have hc : 0 < c.1 := hpos c (List.mem_cons_self _ _)
    have hcs : ∀ x ∈ cs, 0 < x.1 := fun x hx => hpos x (List.mem_cons_of_mem _ hx)
    obtain ⟨h1, h2, _, h4⟩ := SpinTake_release l S c.1 c.2.1 c.2.2
    obtain ⟨h5, _, h7⟩ := h4 hlast hmb
    have hih := ih hcs (install S (SpinTake l (uncontended S c.1) c.2.1 c.2.2).cas)
      (by rw [h1]; omega)
    rw [h1] at hih
    rw [releases_cons, List.countP_cons] at hm ⊢
    rcases Nat.eq_zero_or_pos
      ((releases l (install S (SpinTake l (uncontended S c.1) c.2.1 c.2.2).cas) cs).countP
        (fun x => decide (x ≤ ub))) with h0 | hpos1
    · rw [h0] at hm ⊢
      by_cases htu : releaseOf l S c.1 ≤ ub
      · simp only [htu, decide_True, if_true, Nat.zero_add, Nat.cast_one, one_mul]
        omega
      · simp [htu] at hm
    · have := hih hpos1
      by_cases htu : releaseOf l S c.1 ≤ ub
      · simp only [htu, decide_True, if_true]
        push_cast
        linarith
      · simp only [htu, decide_False, Bool.false_eq_true, if_false, Nat.add_zero]
        linarith

/-- Uncontended `SpinTake` calls at one instant `t`, from a cell whose `last` is `k` spacings
after `t` and whose debt is 0: each call moves `last` one spacing further. -/
theorem runSpinTake_same_instant (l : atomicLimiter) (hp : 0 < l.perRequest)
    (hmb : l.maxBurst ≤ l.perRequest) (t : Int) (ht : 0 < t) (tm : List (Int × Bool))
    (k : Nat) :
    (runSpinTake l { last := t + (k : Int) * l.perRequest, sleepFor := 0 }
        (tm.map (fun x => (t, x.1, x.2)))).2 =
      { last := t + ((k : Int) + (tm.length : Int)) * l.perRequest, sleepFor := 0 } := by
  induction tm generalizing k with
  | nil => simp [runSpinTake_nil]
  | cons x xs ih =>
    have hk : (0 : Int) ≤ (k : Int) * l.perRequest :=
      mul_nonneg (Int.ofNat_nonneg k) (le_of_lt hp)
    have hnd : newDebt l { last := t + (k : Int) * l.perRequest, sleepFor := 0 } t
        = ((k : Int) + 1) * l.perRequest := by
      unfold newDebt
      simp only
      rw [max_eq_right] <;> linarith
    rw [List.map_cons, runSpinTake_cons]
    simp only
    rcases SpinTake_step l { last := t + (k : Int) * l.perRequest, sleepFor := 0 } t x.1 x.2
      with ⟨h0, _⟩ | ⟨_, _, _, hi⟩ | ⟨_, hd, _⟩
    · simp only at h0
      omega
    · rw [hi, hnd]
      have := ih (k + 1)
      push_cast at this
      rw [this, List.length_cons]
      push_cast
      congr 1
      ring
    · rw [hnd] at hd
      nlinarith

/-! ## Interleavings of concurrent `Take` calls -/

theorem stepTake_start (l : atomicLimiter) (nows : Nat → Int) (w : world) (i : Nat)
    (h : w.phase i = .start) :
    stepTake l nows w i =
      { shared := w.shared, fresh := w.fresh,
        phase := fun j => if j = i then .loaded w.shared else w.phase j } := by
  simp only [stepTake, h]

theorem stepTake_returned (l : atomicLimiter) (nows : Nat → Int) (w : world) (i : Nat)
    (snap : pointer) (sw ret : Bool) (h : w.phase i = .returned snap sw ret) :
    stepTake l nows w i = w := by
  simp only [stepTake, h]

theorem stepTake_loaded (l : atomicLimiter) (nows : Nat → Int) (w : world) (i : Nat)
    (snap : pointer) (h : w.phase i = .loaded snap) :
    stepTake l nows w i =
      if (Take l snap.val (nows i) (decide (w.shared.ptr = snap.ptr))).cas.any
          (fun e => e.swapped) then
        { shared := { ptr := w.fresh,
                      val := install w.shared.val
                        (Take l snap.val (nows i) (decide (w.shared.ptr = snap.ptr))).cas },
          fresh := w.fresh + 1,
          phase := fun j => if j = i then
            .returned snap true (Take l snap.val (nows i) (decide (w.shared.ptr = snap.ptr))).ret
            else w.phase j }
      else
        { shared := w.shared, fresh := w.fresh,
          phase := fun j => if j = i then
            .returned snap false
              (Take l snap.val (nows i) (decide (w.shared.ptr = snap.ptr))).ret
            else w.phase j } := by
  simp only [stepTake, h]

/-- A goroutine that loaded a state with zero `last` while the cell still holds the loaded
pointer: its compare-and-swap succeeds and it returns true. -/
theorem stepTake_first_win (l : atomicLimiter) (nows : Nat → Int) (w : world) (i : Nat)
    (snap : pointer) (h : w.phase i = .loaded snap) (hlast : snap.val.last = 0)
    (hptr : w.shared.ptr = snap.ptr) :
    stepTake l nows w i =
      { shared := { ptr := w.fresh,
                    val := { last := nows i, sleepFor := snap.val.sleepFor } },
        fresh := w.fresh + 1,
        phase := fun j => if j = i then .returned snap true true else w.phase j } := by
  rw [stepTake_loaded l nows w i snap h, Take_first l snap.val (nows i) _ hlast]
  simp [hptr, install]

/-- A goroutine that loaded a state with zero `last` but finds another pointer in the cell:
its compare-and-swap fails and it returns false. -/
theorem stepTake_first_lose (l : atomicLimiter) (nows : Nat → Int) (w : world) (i : Nat)
    (snap : pointer) (h : w.phase i = .loaded snap) (hlast : snap.val.last = 0)
    (hptr : w.shared.ptr ≠ snap.ptr) :
    stepTake l nows w i =
      { shared := w.shared, fresh := w.fresh,
        phase := fun j => if j = i then .returned snap false false else w.phase j } := by
  rw [stepTake_loaded l nows w i snap h, Take_first l snap.val (nows i) _ hlast]
  simp [hptr]

/-- A goroutine that loaded a state with non-zero `last` and computes a positive debt returns
false without a compare-and-swap. -/
theorem stepTake_reject (l : atomicLimiter) (nows : Nat → Int) (w : world) (i : Nat)
    (snap : pointer) (h : w.phase i = .loaded snap) (hlast : snap.val.last ≠ 0)
    (hd : 0 < newDebt l snap.val (nows i)) :
    stepTake l nows w i =
      { shared := w.shared, fresh := w.fresh,
        phase := fun j => if j = i then .returned snap false false else w.phase j } := by
  rw [stepTake_loaded l nows w i snap h, Take_reject l snap.val (nows i) _ hlast hd]
  simp

theorem FirstWindowInv_step (l : atomicLimiter) (nows : Nat → Int) (N : Nat) (t0 : Int)
    (hnz : ∀ i, i < N → nows i ≠ 0)
    (hwin : ∀ i, i < N → t0 ≤ nows i ∧ nows i < t0 + l.perRequest)
    (w : world) (i : Nat) (hi : i < N) (hinv : FirstWindowInv nows N w) :
    FirstWindowInv nows N (stepTake l nows w i) := by
  obtain ⟨hf, ⟨hsh, hph⟩ | ⟨a, ha, hptr, hval, hra, hothers⟩⟩ := hinv
  · rcases hph i hi with h | h
    · rw [stepTake_start l nows w i h]
      refine ⟨hf, Or.inl ⟨hsh, fun j hj => ?_⟩⟩
      by_cases hji : j = i
      · right
        simp [hji, hsh]
      · simp only [hji, if_false]
        exact hph j hj
    · rw [stepTake_first_win l nows w i _ h rfl (by rw [hsh])]
      refine ⟨Nat.succ_ne_zero _, Or.inr ⟨i, hi, hf, rfl, by simp [takePhase.result], ?_⟩⟩
      intro j hj hji
      simp only [hji, if_false]
      rcases hph j hj with hj1 | hj1
      · exact Or.inl hj1
      · exact Or.inr (Or.inl hj1)
  · by_cases hia : i = a
    · subst hia
      cases hp : w.phase i with
      | start => rw [hp] at hra; simp [takePhase.result] at hra
      | loaded snap => rw [hp] at hra; simp [takePhase.result] at hra
      | returned snap sw ret =>
        rw [stepTake_returned l nows w i snap sw ret hp]
        exact ⟨hf, Or.inr ⟨i, ha, hptr, hval, hra, hothers⟩⟩
    · have keep : ∀ (ph : takePhase),
          (ph = .loaded w.shared ∨ ph.result = some false) →
          FirstWindowInv nows N
            { shared := w.shared, fresh := w.fresh,
              phase := fun j => if j = i then ph else w.phase j } := by
        intro ph hph
        refine ⟨hf, Or.inr ⟨a, ha, hptr, hval, ?_, ?_⟩⟩
        · show (if a = i then ph else w.phase a).result = some true
          rw [if_neg (fun h : a = i => hia h.symm)]
          exact hra
        · intro j hj hja
          by_cases hji : j = i
          · simp only [hji, if_true]
            exact Or.inr (Or.inr hph)
          · simp only [hji, if_false]
            exact hothers j hj hja
      rcases hothers i hi hia with h | h | h | h
      · rw [stepTake_start l nows w i h]
        exact keep _ (Or.inl rfl)
      · rw [stepTake_first_lose l nows w i _ h rfl hptr]
        exact keep _ (Or.inr rfl)
      · have hd : 0 < newDebt l w.shared.val (nows i) := by
          have := elapsed_le_newDebt l w.shared.val (nows i)
          rw [hval] at this ⊢
          simp only at this
          have h1 := (hwin i hi).2
          have h2 := (hwin a ha).1
          omega
        rw [stepTake_reject l nows w i _ h (by rw [hval]; exact hnz a ha) hd]
        exact keep _ (Or.inr rfl)
      · cases hp : w.phase i with
        | start => rw [hp] at h; simp [takePhase.result] at h
        | loaded snap => rw [hp] at h; simp [takePhase.result] at h
        | returned snap sw ret =>
          rw [stepTake_returned l nows w i snap sw ret hp]
          exact ⟨hf, Or.inr ⟨a, ha, hptr, hval, hra, hothers⟩⟩

theorem FirstWindowInv_run (l : atomicLimiter) (nows : Nat → Int) (N : Nat) (t0 : Int)
    (hnz : ∀ i, i < N → nows i ≠ 0)
    (hwin : ∀ i, i < N → t0 ≤ nows i ∧ nows i < t0 + l.perRequest)
    (sched : List Nat) (w : world) (hinv : FirstWindowInv nows N w) :
    FirstWindowInv nows N (runSchedule l nows N w sched) := by
  induction sched generalizing w with
  | nil => exact hinv
  | cons i sched ih =>
    simp only [runSchedule]
    apply ih
    split_ifs with hi
    · exact FirstWindowInv_step l nows N t0 hnz hwin w i hi hinv
    · exact hinv

theorem FreshInv_step (l : atomicLimiter) (nows : Nat → Int) (w : world) (i : Nat)
    (hinv : FreshInv w) : FreshInv (stepTake l nows w i) := by
  obtain ⟨h1, h2, h3⟩ := hinv
  have keep : ∀ (ph : takePhase), ph.swappedFrom = none →
      FreshInv { shared := w.shared, fresh := w.fresh,
                 phase := fun j => if j = i then ph else w.phase j } := by
    intro ph hph
    refine ⟨h1, ?_, ?_⟩
    · intro j q hq
      by_cases hji : j = i
      · simp only [hji, if_true, hph] at hq
        cases hq
      · simp only [hji, if_false] at hq
        exact h2 j q hq
    · intro j k q hjk hj hk
      by_cases hji : j = i
      · simp only [hji, if_true, hph] at hj
        cases hj
      · by_cases hki : k = i
        · simp only [hki, if_true, hph] at hk
          cases hk
        · simp only [hji, hki, if_false] at hj hk
          exact h3 j k q hjk hj hk
  cases hp : w.phase i with
  | start =>
    rw [stepTake_start l nows w i hp]
    exact keep _ rfl
  | returned snap sw ret =>
    rw [stepTake_returned l nows w i snap sw ret hp]
    exact ⟨h1, h2, h3⟩
  | loaded snap =>
    rw [stepTake_loaded l nows w i snap hp]
    split_ifs with hany
    · have hwins : w.shared.ptr = snap.ptr := by
        rw [List.any_eq_true] at hany
        obtain ⟨e, he, hsw⟩ := hany
        have := (Take_cas_mem l snap.val (nows i) _ e he).2.1
        rw [hsw] at this
        exact of_decide_eq_true this.symm
      refine ⟨Nat.lt_succ_self _, ?_, ?_⟩
      · intro j q hq
        by_cases hji : j = i
        · simp only [hji, if_true, takePhase.swappedFrom, Option.some.injEq] at hq
          simp only
          omega
        · simp only [hji, if_false] at hq
          have := h2 j q hq
          simp only
          omega
      · intro j k q hjk hj hk
        by_cases hji : j = i
        · have hki : k ≠ i := fun h => hjk (hji.trans h.symm)
          simp only [hji, if_true, takePhase.swappedFrom, Option.some.injEq] at hj
          simp only [hki, if_false] at hk
          have := h2 k q hk
          omega
        · simp only [hji, if_false] at hj
          have hlt := h2 j q hj
          by_cases hki : k = i
          · simp only [hki, if_true, takePhase.swappedFrom, Option.some.injEq] at hk
            omega
          · simp only [hki, if_false] at hk
            exact h3 j k q hjk hj hk
    · exact keep _ rfl

theorem FreshInv_run (l : atomicLimiter) (nows : Nat → Int) (N : Nat) (sched : List Nat)
    (w : world) (hinv : FreshInv w) : FreshInv (runSchedule l nows N w sched) := by
  induction sched generalizing w with
  | nil => exact hinv
  | cons i sched ih =>
    simp only [runSchedule]
    apply ih
    split_ifs with hi
    · exact FreshInv_step l nows w i hinv
    · exact hinv

theorem FreshInv_init (S0 : state) : FreshInv (initWorld S0) := by
  refine ⟨Nat.zero_lt_one, ?_, ?_⟩
  · intro i q hq
    simp [initWorld, takePhase.swappedFrom] at hq
  · intro i j q _ hq
    simp [initWorld, takePhase.swappedFrom] at hq

/-- A step of goroutine `i` moves it one phase forward, unless it has returned, and leaves the
phase of every other goroutine. -/
theorem stepTake_rank (l : atomicLimiter) (nows : Nat → Int) (w : world) (i : Nat) :
    ((stepTake l nows w i).phase i).rank = min 2 ((w.phase i).rank + 1) ∧
    ∀ j, j ≠ i → (stepTake l nows w i).phase j = w.phase j := by
  cases hp : w.phase i with
  | start =>
    rw [stepTake_start l nows w i hp]
    exact ⟨by simp [takePhase.rank], fun j hj => by simp [hj]⟩
  | returned snap sw ret =>
    rw [stepTake_returned l nows w i snap sw ret hp]
    exact ⟨by simp [hp, takePhase.rank], fun _ _ => rfl⟩
  | loaded snap =>
    rw [stepTake_loaded l nows w i snap hp]
    split_ifs <;> exact ⟨by simp [takePhase.rank], fun j hj => by simp [hj]⟩

/-- Progress: after a schedule in which goroutine `i` is named `c` times, it has made
`min 2 (rank + c)` steps. -/
theorem runSchedule_rank (l : atomicLimiter) (nows : Nat → Int) (N : Nat) (i : Nat)
    (hi : i < N) (sched : List Nat) (w : world) :
    ((runSchedule l nows N w sched).phase i).rank =
      min 2 ((w.phase i).rank + sched.count i) := by
  have hrank : ∀ ph : takePhase, ph.rank ≤ 2 := by
    intro ph; cases ph <;> simp [takePhase.rank]
  induction sched generalizing w with
  | nil =>
    have := hrank (w.phase i)
    simp only [runSchedule, List.count_nil, Nat.add_zero]
    omega
  | cons k sched ih =>
    simp only [runSchedule]
    rw [ih, List.count_cons]
    by_cases hki : k = i
    · subst hki
      simp only [hi, if_true, beq_self_eq_true]
      rw [(stepTake_rank l nows w k).1]
      omega
    · have hne : (k == i) = false := by simpa using hki
      simp only [hne, Bool.false_eq_true, if_false, Nat.add_zero]
      split_ifs with hk
      · rw [(stepTake_rank l nows w k).2 i (fun h => hki h.symm)]
      · rfl

theorem takePhase.result_ne_none_of_rank (ph : takePhase) (h : ph.rank = 2) :
    ph.result ≠ none := by
  cases ph <;> simp [takePhase.rank, takePhase.result] at h ⊢

/-- A bound `c ≤ 0` that is below the burst floor and below the initial debt is below the
debt of every reachable cell. -/
theorem Reachable.floor_le (l : atomicLimiter) (S0 S : state) (c : Int) (hc : c ≤ 0)
    (hmb : c ≤ l.maxBurst) (h0 : c ≤ S0.sleepFor) (h : Reachable l S0 S) :
    c ≤ S.sleepFor := by
  induction h with
  | init => exact h0
  | take S now wins e _ he _ ih =>
    rcases (Take_cas_mem l S now wins e he).2.2 with ⟨_, hn⟩ | ⟨_, _, hn⟩
    · rw [hn]; exact ih
    · rw [hn]; exact le_trans hmb (maxBurst_le_newDebt l S now)
  | spinTake inputs maxSpin timerFirst e _ he _ ih =>
    rw [SpinTake_cas] at he
    obtain ⟨k, _, _, hk⟩ := spinTakePointer_cas_mem l inputs e he
    rcases hk with ⟨_, hn⟩ | ⟨_, _, hn⟩ | ⟨_, _, hn⟩
    · rw [hn]; exact ih k
    · rw [hn]; exact hc
    · rw [hn]; exact le_trans hmb (maxBurst_le_newDebt l _ _)

/-- Spacing of the admitted instants of a sequential uncontended run, for a limiter with
`per_request > 0` whose floor is not below `-B * per_request`, from a cell whose debt is not
below it either: `tj - ti ≥ (j - i - B) * per_request` for the admitted calls of index
`i < j`, and at most `T / per_request + B + 1` admitted instants in any window `[a, a + T]`. -/
theorem admitted_rate_bound (l : atomicLimiter) (B : Int) (S : state) (nows : List Int)
    (hp : 0 < l.perRequest) (hB : 0 ≤ B) (hmb : -(B * l.perRequest) ≤ l.maxBurst)
    (hS : -(B * l.perRequest) ≤ S.sleepFor) (hnz : ∀ t ∈ nows, t ≠ 0) :
    (∀ (i j : Nat) (ti tj : Int), i < j →
      (admitted l S nows)[i]? = some ti → (admitted l S nows)[j]? = some tj →
      ((j : Int) - (i : Int) - B) * l.perRequest ≤ tj - ti) ∧
    (∀ a T : Int, 0 ≤ T →
      (((admitted l S nows).countP (fun x => decide (a ≤ x ∧ x ≤ a + T)) : Nat) : Int)
        ≤ T / l.perRequest + B + 1) := by
  constructor
  · intro i j ti tj hij hi hj
    induction nows generalizing S i j with
    | nil => simp [admitted_nil] at hj
    | cons t ts ih =>
      have ht : t ≠ 0 := hnz t (List.mem_cons_self _ _)
      have hts : ∀ x ∈ ts, x ≠ 0 := fun x hx => hnz x (List.mem_cons_of_mem _ hx)
      have hstep : ∀ S1 : state, S1.last = t → -(B * l.perRequest) ≤ S1.sleepFor →
          (t :: admitted l S1 ts)[i]? = some ti → (t :: admitted l S1 ts)[j]? = some tj →
          ((j : Int) - (i : Int) - B) * l.perRequest ≤ tj - ti := by
        intro S1 hl1 hf1 hi hj
        obtain ⟨j, rfl⟩ : ∃ j1, j = j1 + 1 := ⟨j - 1, by omega⟩
        simp only [List.getElem?_cons_succ] at hj
        cases i with
        | zero =>
          simp only [List.getElem?_cons_zero, Option.some.injEq] at hi
          subst hi
          have := admitted_spacing_from l ts hts S1 (by rw [hl1]; exact ht) j tj hj
          rw [hl1] at this
          push_cast
          linarith
        | succ i =>
          simp only [List.getElem?_cons_succ] at hi
          have := ih S1 hf1 hts i j (by omega) hi hj
          push_cast
          linarith
      rcases Take_step l S t with ⟨_, h1, h2⟩ | ⟨_, _, h1, h2⟩ | ⟨_, _, h1, _⟩
      · rw [admitted_cons_true l S t ts h1, h2] at hi hj
        exact hstep { last := t, sleepFor := S.sleepFor } rfl hS hi hj
      · rw [admitted_cons_true l S t ts h1, h2] at hi hj
        exact hstep { last := t, sleepFor := newDebt l S t } rfl (le_trans hmb (maxBurst_le_newDebt l S t)) hi hj
      · rw [admitted_cons_false l S t ts h1] at hi hj
        exact ih S hS hts i j hij hi hj
  · intro a T hT
    have hquot : 0 ≤ T / l.perRequest := Int.ediv_nonneg hT (le_of_lt hp)
    induction nows generalizing S with
    | nil =>
      simp only [admitted_nil, List.countP_nil, Nat.cast_zero]
      omega
    | cons t ts ih =>
      have ht : t ≠ 0 := hnz t (List.mem_cons_self _ _)
      have hts : ∀ x ∈ ts, x ≠ 0 := fun x hx => hnz x (List.mem_cons_of_mem _ hx)
      have hstep : ∀ S1 : state, S1.last = t → -(B * l.perRequest) ≤ S1.sleepFor →
          (((t :: admitted l S1 ts).countP (fun x => decide (a ≤ x ∧ x ≤ a + T)) : Nat) : Int)
            ≤ T / l.perRequest + B + 1 := by
        intro S1 hl1 hf1
        rw [List.countP_cons]
        by_cases hin : a ≤ t ∧ t ≤ a + T
        · simp only [hin, and_self, decide_True, if_true]
          have hle : (admitted l S1 ts).countP (fun x => decide (a ≤ x ∧ x ≤ a + T))
              ≤ (admitted l S1 ts).countP (fun x => decide (x ≤ a + T)) := by
            apply List.countP_mono_left
            intro x _ hx
            simp only [decide_eq_true_eq] at hx ⊢
            exact hx.2
          rcases Nat.eq_zero_or_pos
            ((admitted l S1 ts).countP (fun x => decide (x ≤ a + T))) with h0 | hpos
          · rw [h0] at hle
            have : (admitted l S1 ts).countP (fun x => decide (a ≤ x ∧ x ≤ a + T)) = 0 := by
              omega
            rw [this]
            push_cast
            omega
          · have hc := admitted_count_from l hp (a + T) ts hts S1 (by rw [hl1]; exact ht) hpos
            rw [hl1] at hc
            have hmul : ((((admitted l S1 ts).countP (fun x => decide (x ≤ a + T)) : Nat) : Int)
                - B) * l.perRequest ≤ T := by
              linarith [hin.1]
            have hdiv := (Int.le_ediv_iff_mul_le hp).mpr hmul
            have hle2 : (((admitted l S1 ts).countP
                (fun x => decide (a ≤ x ∧ x ≤ a + T)) : Nat) : Int)
                ≤ (((admitted l S1 ts).countP (fun x => decide (x ≤ a + T)) : Nat) : Int) :=
              Int.ofNat_le.mpr hle
            push_cast
            omega
        · simp only [hin, decide_False, Bool.false_eq_true, if_false, Nat.add_zero]
          exact ih S1 hf1 hts
      rcases Take_step l S t with ⟨_, h1, h2⟩ | ⟨_, _, h1, h2⟩ | ⟨_, _, h1, _⟩
      · rw [admitted_cons_true l S t ts h1, h2]
        exact hstep { last := t, sleepFor := S.sleepFor } rfl hS
      · rw [admitted_cons_true l S t ts h1, h2]
        exact hstep { last := t, sleepFor := newDebt l S t } rfl
          (le_trans hmb (maxBurst_le_newDebt l S t))
      · rw [admitted_cons_false l S t ts h1]
        exact ih S hS hts

/-! ## Theorems -/

/-- C1: on a snapshot with non-zero `last`, `Take` returns true exactly when the clamped
tentative debt is at most zero and the compare-and-swap wins; when it returns true the cell
becomes `{last: now, sleep_debt: new_debt}`; and it makes at most one compare-and-swap (a lost
one gives false with the cell untouched, although the debt allowed admission). -/
theorem take_decision_and_post_state (l : atomicLimiter) (S : state) (now : Int) (wins : Bool)
    (hlast : S.last ≠ 0) :
    ((Take l S now wins).ret = true ↔ (newDebt l S now ≤ 0 ∧ wins = true)) ∧
    ((Take l S now wins).ret = true →
      install S (Take l S now wins).cas = { last := now, sleepFor := newDebt l S now } ∧
      writes (Take l S now wins).cas = [{ last := now, sleepFor := newDebt l S now }]) ∧
    (Take l S now wins).cas.length ≤ 1 ∧
    (newDebt l S now ≤ 0 → wins = false →
      (Take l S now wins).ret = false ∧ (Take l S now wins).cas.length = 1 ∧
      install S (Take l S now wins).cas = S) := by
  rcases le_or_lt (newDebt l S now) 0 with hd | hd
  · rw [Take_attempt l S now wins hlast hd]
    cases wins <;> simp [install, writes, hd]
  · rw [Take_reject l S now wins hlast hd]
    simp [install, writes]
    omega

/-- Witness for C1: the limiter of rate 10 per second with burst 1, on the cell
`{last: 1000, sleep_debt: 0}`, read 150 ms later with a winning swap. -/
theorem take_decision_and_post_state_witness :
    ((Take ⟨100000000, -100000000⟩ ⟨1000, 0⟩ 150001000 true).ret = true ↔
      (newDebt ⟨100000000, -100000000⟩ ⟨1000, 0⟩ 150001000 ≤ 0 ∧ true = true)) ∧
    ((Take ⟨100000000, -100000000⟩ ⟨1000, 0⟩ 150001000 true).ret = true →
      install ⟨1000, 0⟩ (Take ⟨100000000, -100000000⟩ ⟨1000, 0⟩ 150001000 true).cas =
        { last := 150001000,
          sleepFor := newDebt ⟨100000000, -100000000⟩ ⟨1000, 0⟩ 150001000 } ∧
      writes (Take ⟨100000000, -100000000⟩ ⟨1000, 0⟩ 150001000 true).cas =
        [{ last := 150001000,
           sleepFor := newDebt ⟨100000000, -100000000⟩ ⟨1000, 0⟩ 150001000 }]) ∧
    (Take ⟨100000000, -100000000⟩ ⟨1000, 0⟩ 150001000 true).cas.length ≤ 1 ∧
    (newDebt ⟨100000000, -100000000⟩ ⟨1000, 0⟩ 150001000 ≤ 0 → true = false →
      (Take ⟨100000000, -100000000⟩ ⟨1000, 0⟩ 150001000 true).ret = false ∧
      (Take ⟨100000000, -100000000⟩ ⟨1000, 0⟩ 150001000 true).cas.length = 1 ∧
      install ⟨1000, 0⟩ (Take ⟨100000000, -100000000⟩ ⟨1000, 0⟩ 150001000 true).cas =
        ⟨1000, 0⟩) :=
  take_decision_and_post_state ⟨100000000, -100000000⟩ ⟨1000, 0⟩ 150001000 true (by decide)

set_option maxRecDepth 1000000 in
/-- C2 as stated fails: the spacing is the truncated quotient, not `period / rate`.
`New(150000000, 0, time.Second)` has `per_request` 6 ns where the rate asks for 6.67 ns
between calls; 1000 uncontended calls 6 ns apart from the instant 1000 are all admitted, in a
window of 5994 ns in which 150000000 per second allows 899, and 900 with the burst slack. -/
theorem take_rate_counterexample :
    ∃ l S0, New 150000000 0 Second = some (l, S0) ∧ l.perRequest = 6 ∧ l.maxBurst = 0 ∧
      admitted l S0 ((List.range 1000).map (fun k => 1000 + 6 * (k : Int))) =
        (List.range 1000).map (fun k => 1000 + 6 * (k : Int)) ∧
      ((((List.range 1000).map (fun k => 1000 + 6 * (k : Int))).countP
        (fun x => decide ((1000 : Int) ≤ x ∧ x ≤ 1000 + 5994)) : Nat) : Int) = 1000 ∧
      (5994 : Int) * 150000000 / Second + 0 + 1 = 900 ∧
      ¬ ((1000 : Int) ≤ 5994 * 150000000 / Second + 0 + 1) :=
  ⟨⟨6, 0⟩, ⟨0, 0⟩, by decide, rfl, rfl, by decide, by decide, by decide, by decide⟩

/-- C2, amended: for every limiter `New(rate, max_burst, period)` with `per_request > 0` and
`max_burst ≥ 0`, the spacing `per_request` is the truncated quotient `period / rate`; in every
sequential uncontended run of `Take` at arbitrary non-zero clock readings from the fresh cell
or any reachable one, the admitted calls of index `i < j` are at least
`(j - i - max_burst) * per_request` apart, and at most `T / per_request + max_burst + 1`
admitted instants lie in any window `[a, a + T]`.  The admitted rate is thus at most one per
`per_request`; it is at most `rate` per `period`
(`(count - max_burst - 1) * period ≤ T * rate`) when `rate ≥ 1` divides `period`. -/
theorem take_rate_bound (rate maxBurst period : Int) (l : atomicLimiter) (S0 : state)
    (hnew : New rate maxBurst period = some (l, S0))
    (hburst : 0 ≤ maxBurst) (hpos : 0 < l.perRequest) :
    l.perRequest = Int.tdiv period rate ∧
    ∀ (S : state) (nows : List Int), Reachable l S0 S → (∀ t ∈ nows, t ≠ 0) →
      (∀ (i j : Nat) (ti tj : Int), i < j →
        (admitted l S nows)[i]? = some ti → (admitted l S nows)[j]? = some tj →
        ((j : Int) - (i : Int) - maxBurst) * l.perRequest ≤ tj - ti) ∧
      (∀ a T : Int, 0 ≤ T →
        (((admitted l S nows).countP (fun x => decide (a ≤ x ∧ x ≤ a + T)) : Nat) : Int)
          ≤ T / l.perRequest + maxBurst + 1) ∧
      (1 ≤ rate → rate * l.perRequest = period → ∀ a T : Int, 0 ≤ T →
        ((((admitted l S nows).countP (fun x => decide (a ≤ x ∧ x ≤ a + T)) : Nat) : Int)
          - maxBurst - 1) * period ≤ T * rate) := by
  obtain ⟨_, hp, hm, hS⟩ := New_eq_some rate maxBurst period l S0 hnew
  have hquot : l.perRequest = Int.tdiv period rate := by
    rw [hp]
    unfold div64
    split_ifs with h
    · exfalso
      rw [hp] at hpos
      unfold div64 at hpos
      rw [if_pos h] at hpos
      omega
    · rfl
  have hfloor : -(maxBurst * l.perRequest) ≤ l.maxBurst := by
    rw [hm]
    exact mul64_floor maxBurst l.perRequest hburst (le_of_lt hpos)
  refine ⟨hquot, ?_⟩
  intro S nows hreach hnz
  have hc0 : -(maxBurst * l.perRequest) ≤ 0 := by
    have := mul_nonneg hburst (le_of_lt hpos)
    omega
  have hSf : -(maxBurst * l.perRequest) ≤ S.sleepFor :=
    Reachable.floor_le l S0 S _ hc0 hfloor (by rw [hS]; exact hc0) hreach
  obtain ⟨h1, h2⟩ := admitted_rate_bound l maxBurst S nows hpos hburst hfloor hSf hnz
  refine ⟨h1, h2, ?_⟩
  intro hrate hdiv a T hT
  have hw := h2 a T hT
  have hmul : ((((admitted l S nows).countP (fun x => decide (a ≤ x ∧ x ≤ a + T)) : Nat) : Int)
      - maxBurst - 1) * l.perRequest ≤ T :=
    (Int.le_ediv_iff_mul_le hpos).mp (by omega)
  have hr0 : (0 : Int) ≤ rate := by omega
  have := mul_le_mul_of_nonneg_right hmul hr0
  rw [← hdiv]
  calc ((((admitted l S nows).countP (fun x => decide (a ≤ x ∧ x ≤ a + T)) : Nat) : Int)
        - maxBurst - 1) * (rate * l.perRequest)
      = ((((admitted l S nows).countP (fun x => decide (a ≤ x ∧ x ≤ a + T)) : Nat) : Int)
        - maxBurst - 1) * l.perRequest * rate := by ring
    _ ≤ T * rate := this

/-- Witness for C2 amended: `New(10, 1, time.Second)`, the fresh cell, calls at 0, 50, 150 and
260 ms after the instant 1000: the admitted instants are the first, third and fourth; the
first and the last are at least `(2 - 0 - 1) * 100 ms` apart, and at most
`T * 10 / 1 s + 1 + 1` of them lie in the window `[0, T]` for `T` = 300 ms. -/
theorem take_rate_bound_witness :
    New 10 1 Second = some (⟨100000000, -100000000⟩, ⟨0, 0⟩) ∧
    admitted ⟨100000000, -100000000⟩ ⟨0, 0⟩ [1000, 50001000, 150001000, 260001000] =
      [1000, 150001000, 260001000] ∧
    (((2 : Nat) : Int) - ((0 : Nat) : Int) - 1) * (100000000 : Int) ≤ 260001000 - 1000 ∧
    (((admitted ⟨100000000, -100000000⟩ ⟨0, 0⟩
        [1000, 50001000, 150001000, 260001000]).countP
        (fun x => decide ((0 : Int) ≤ x ∧ x ≤ 0 + 300000000)) : Nat) : Int)
      ≤ 300000000 / (100000000 : Int) + 1 + 1 ∧
    ((((admitted ⟨100000000, -100000000⟩ ⟨0, 0⟩
        [1000, 50001000, 150001000, 260001000]).countP
        (fun x => decide ((0 : Int) ≤ x ∧ x ≤ 0 + 300000000)) : Nat) : Int)
      - 1 - 1) * Second ≤ 300000000 * 10 :=
  have h := (take_rate_bound 10 1 Second ⟨100000000, -100000000⟩ ⟨0, 0⟩
    (by decide) (by decide) (by decide)).2 ⟨0, 0⟩
    [1000, 50001000, 150001000, 260001000] Reachable.init (by decide)
  ⟨by decide, by decide, h.1 0 2 1000 260001000 (by decide) (by decide) (by decide),
    h.2.1 0 300000000 (by decide),
    h.2.2 (by decide) (by decide) 0 300000000 (by decide)⟩

/-- C3: a `Take` that returns false (debt too high, or its one compare-and-swap lost) writes
nothing: whatever the cell holds, it holds the same after the call.  In a sequential run, calls
that were all rejected leave the cell as it was, so the call that follows them has the outcome
and the post-state it would have had without them. -/
theorem rejected_take_records_nothing (l : atomicLimiter) (S : state) :
    (∀ now wins, (Take l S now wins).ret = false →
      writes (Take l S now wins).cas = [] ∧
      ∀ cell, install cell (Take l S now wins).cas = cell) ∧
    (∀ cs : List (Int × Bool), (∀ b ∈ (runTake l S cs).1, b = false) →
      (runTake l S cs).2 = S ∧
      ∀ now wins,
        Take l (runTake l S cs).2 now wins = Take l S now wins ∧
        runTake l S (cs ++ [(now, wins)]) =
          ((runTake l S cs).1 ++ [(Take l S now wins).ret],
           install S (Take l S now wins).cas)) := by
  refine ⟨fun now wins h => ⟨writes_of_ret_false l S now wins h,
    install_of_ret_false l S now wins h⟩, ?_⟩
  intro cs h
  have hS := runTake_all_false l S cs h
  refine ⟨hS, fun now wins => ⟨by rw [hS], ?_⟩⟩
  rw [runTake_append, hS]
  simp [runTake_cons, runTake_nil]

/-- Witness for C3: with rate 10 per second and burst 1, two calls 20 ms and 50 ms after an
admission are rejected; the call at 150 ms then behaves as if they had not been made. -/
theorem rejected_take_records_nothing_witness :
    (runTake ⟨100000000, -100000000⟩ ⟨1000, 0⟩
        [(20001000, true), (50001000, true)]).1 = [false, false] ∧
    (runTake ⟨100000000, -100000000⟩ ⟨1000, 0⟩
        [(20001000, true), (50001000, true)]).2 = ⟨1000, 0⟩ ∧
    runTake ⟨100000000, -100000000⟩ ⟨1000, 0⟩
        ([(20001000, true), (50001000, true)] ++ [(150001000, true)]) =
      ([false, false] ++ [true], ⟨150001000, -50000000⟩) := by
  have h := (rejected_take_records_nothing ⟨100000000, -100000000⟩ ⟨1000, 0⟩).2
    [(20001000, true), (50001000, true)] (by decide)
  refine ⟨by decide, h.1, ?_⟩
  rw [(h.2 150001000 true).2]
  decide

/-- C4 (the code at the failing inputs): `New` does not coerce the rate.  With rate 0 the
division panics; with rate -1 it yields `per_request = -period` and a positive
`max_burst_debt`, not the limiter of rate 1.  Only the middleware constructors replace a rate,
and only the rate 0. -/
theorem New_rate_not_coerced :
    New 0 1 Second = none ∧
    New (-1) 1 Second =
      some ({ perRequest := -Second, maxBurst := Second }, { last := 0, sleepFor := 0 }) ∧
    New 1 1 Second =
      some ({ perRequest := Second, maxBurst := -Second }, { last := 0, sleepFor := 0 }) ∧
    New (-1) 1 Second ≠ New 1 1 Second ∧
    NewRateLimitMiddleware 0 1 Second = New 1 1 Second ∧
    NewRateLimitMiddleware (-1) 1 Second = New (-1) 1 Second := by
  decide

/-- C5 (the code at a failing input): `New(1, 200000, 24 * time.Hour)`.  The exact floor
`-max_burst * per_request` is `-17280000000000000000`, below the int64 range; the product
wraps and the limiter's floor is `+1166744073709551616`, above the debt 0 of the initial cell.
The clamp then raises a debt to that positive floor: one day after a first call at 1000 the
candidate debt 0 becomes the floor, `Take` returns false and `SpinTake` sleeps it. -/
theorem debt_floor_wraps_positive :
    New 1 200000 (24 * 3600 * Second) =
      some ({ perRequest := 86400000000000, maxBurst := 1166744073709551616 },
            { last := 0, sleepFor := 0 }) ∧
    (-200000 : Int) * 86400000000000 = -17280000000000000000 ∧
    ¬ ((⟨86400000000000, 1166744073709551616⟩ : atomicLimiter).maxBurst
        ≤ (⟨0, 0⟩ : state).sleepFor) ∧
    (runTakeNow ⟨86400000000000, 1166744073709551616⟩ ⟨0, 0⟩ [1000]).2 = ⟨1000, 0⟩ ∧
    (0 : Int) + 86400000000000 - (1000 + 86400000000000 - 1000) = 0 ∧
    newDebt ⟨86400000000000, 1166744073709551616⟩ ⟨1000, 0⟩ (1000 + 86400000000000)
      = 1166744073709551616 ∧
    (Take ⟨86400000000000, 1166744073709551616⟩ ⟨1000, 0⟩
      (1000 + 86400000000000) true).ret = false ∧
    (spinTakePointer ⟨86400000000000, 1166744073709551616⟩
      (uncontended ⟨1000, 0⟩ (1000 + 86400000000000))).slept = some 1166744073709551616 := by
  decide

/-- C6: for a limiter with `per_request > 0` and `max_burst = B` (any `B`, so `B ≥ 1` in
particular), from every reachable cell with non-zero `last`, `B` uncontended calls made at one instant `t` that is at least
`B * per_request` after `last` all return true. -/
theorem burst_available_after_idle (l : atomicLimiter) (B : Nat) (S : state) (t : Int)
    (hp : 0 < l.perRequest) (hmb : l.maxBurst = -1 * (B : Int) * l.perRequest)
    (hreach : Reachable l { last := 0, sleepFor := 0 } S) (hlast : S.last ≠ 0)
    (hidle : (B : Int) * l.perRequest ≤ t - S.last) :
    (runTakeNow l S (List.replicate B t)).1 = List.replicate B true := by
  have hs : S.sleepFor ≤ 0 := Reachable.sleepFor_le_zero l _ S (le_refl _) hreach
  apply runTakeNow_replicate_true l t hp B S
  right
  refine ⟨hlast, ?_⟩
  unfold newDebt
  rcases max_cases l.maxBurst (S.sleepFor + l.perRequest - (t - S.last)) with ⟨h, _⟩ | ⟨h, _⟩
  · rw [h, hmb]
    linarith
  · rw [h]
    linarith

/-- Witness for C6: rate 10 per second, burst 2, the cell left by a first call at 1000, and
two calls 200 ms later. -/
theorem burst_available_after_idle_witness :
    (runTakeNow ⟨100000000, -200000000⟩ ⟨1000, 0⟩ (List.replicate 2 200001000)).1 =
      List.replicate 2 true :=
  burst_available_after_idle ⟨100000000, -200000000⟩ 2 ⟨1000, 0⟩ 200001000
    (by decide) (by decide)
    (Reachable.take ⟨0, 0⟩ 1000 true ⟨⟨0, 0⟩, ⟨1000, 0⟩, true⟩ Reachable.init
      (by decide) rfl)
    (by decide) (by decide)

/-- C7 as stated fails: with rate 10, burst 1 and period 1 s, after a first call at 1000 the
calls made one second later return true, true, false: two admissions back-to-back, more than
the burst of 1. -/
theorem burst_bound_counterexample :
    ∃ l S0, New 10 1 Second = some (l, S0) ∧
      (runTakeNow l S0 [1000]).2 = { last := 1000, sleepFor := 0 } ∧
      Reachable l S0 { last := 1000, sleepFor := 0 } ∧
      (runTakeNow l { last := 1000, sleepFor := 0 }
        (List.replicate 3 (1000 + Second))).1 = [true, true, false] ∧
      ¬ ((runTakeNow l { last := 1000, sleepFor := 0 }
        (List.replicate 3 (1000 + Second))).1.count true ≤ 1) :=
  ⟨⟨100000000, -100000000⟩, ⟨0, 0⟩, by decide, by decide,
    Reachable.take ⟨0, 0⟩ 1000 true ⟨⟨0, 0⟩, ⟨1000, 0⟩, true⟩ Reachable.init (by decide) rfl,
    by decide, by decide⟩

/-- C7, amended: for a limiter with `per_request > 0` and `max_burst = B ≥ 0`, from every
cell with non-zero `last` (reachable or not), among any number `n` of uncontended calls made at one
non-zero instant `t` the admitted ones come first and are at most `B + 1`; so the
`(B+2)`-th back-to-back call is rejected. -/
theorem burst_bounded_by_max_burst_plus_one (l : atomicLimiter) (B : Nat) (S : state) (t : Int)
    (n : Nat) (hp : 0 < l.perRequest) (hmb : l.maxBurst = -1 * (B : Int) * l.perRequest)
    (hlast : S.last ≠ 0) (ht : t ≠ 0) :
    (∃ k, k ≤ B + 1 ∧ k ≤ n ∧
      (runTakeNow l S (List.replicate n t)).1 =
        List.replicate k true ++ List.replicate (n - k) false) ∧
    (runTakeNow l S (List.replicate n t)).1.count true ≤ B + 1 ∧
    (runTakeNow l S (List.replicate (B + 2) t)).1.getLast? = some false := by
  have key : ∀ n : Nat, ∃ k, k ≤ B + 1 ∧ k ≤ n ∧
      (runTakeNow l S (List.replicate n t)).1 =
        List.replicate k true ++ List.replicate (n - k) false := by
    intro n
    cases n with
    | zero => exact ⟨0, Nat.zero_le _, Nat.zero_le _, rfl⟩
    | succ n =>
      rcases Take_step l S t with ⟨h0, _⟩ | ⟨_, _, h1, h2⟩ | ⟨_, _, h1, _⟩
      · exact absurd h0 hlast
      · have hfloor := maxBurst_le_newDebt l S t
        obtain ⟨k, hk1, hk2, hk3⟩ := runTakeNow_replicate_shape l t hp ht n B
          { last := t, sleepFor := newDebt l S t } rfl hfloor (by
            simp only
            rw [hmb] at hfloor
            linarith)
        refine ⟨k + 1, by omega, by omega, ?_⟩
        rw [List.replicate_succ, runTakeNow_cons]
        simp only [h1, h2]
        rw [hk3, List.replicate_succ]
        simp
      · refine ⟨0, Nat.zero_le _, Nat.zero_le _, ?_⟩
        rw [runTakeNow_replicate_false l t (n + 1) S h1]
        simp
  refine ⟨key n, ?_, ?_⟩
  · obtain ⟨k, hk1, _, hk3⟩ := key n
    rw [hk3]
    simp [List.count_append, List.count_replicate]
    exact hk1
  · obtain ⟨k, hk1, _, hk3⟩ := key (B + 2)
    rw [hk3]
    have : B + 2 - k = (B + 1 - k) + 1 := by omega
    rw [this, List.replicate_succ' (B + 1 - k) false, ← List.append_assoc]
    simp

/-- Witness for C7 amended: rate 10 per second, burst 1, the cell left by a first call at
1000, three calls one second later. -/
theorem burst_bounded_by_max_burst_plus_one_witness :
    (runTakeNow ⟨100000000, -100000000⟩ ⟨1000, 0⟩
      (List.replicate 3 1000001000)).1.count true ≤ 1 + 1 ∧
    (runTakeNow ⟨100000000, -100000000⟩ ⟨1000, 0⟩
      (List.replicate (1 + 2) 1000001000)).1.getLast? = some false :=
  (burst_bounded_by_max_burst_plus_one ⟨100000000, -100000000⟩ 1 ⟨1000, 0⟩ 1000001000 3
    (by decide) (by decide) (by decide) (by decide)).2

/-- C8: for `New(10, 1, time.Second)` the spacing is 100 ms, and uncontended calls at offsets
0, 50, 150 and 260 ms from a non-zero start instant return true, false, true, true. -/
theorem worked_example (t0 : Int) (h0 : t0 ≠ 0) :
    ∃ l S0, New 10 1 Second = some (l, S0) ∧
      l.perRequest = 100 * Millisecond ∧
      (runTakeNow l S0 [t0, t0 + 50 * Millisecond, t0 + 150 * Millisecond,
        t0 + 260 * Millisecond]).1 = [true, false, true, true] := by
  refine ⟨{ perRequest := 100000000, maxBurst := -100000000 }, { last := 0, sleepFor := 0 },
    by decide, by decide, ?_⟩
  have e1 : Take ⟨100000000, -100000000⟩ ⟨0, 0⟩ t0 true = ⟨true, [⟨⟨0, 0⟩, ⟨t0, 0⟩, true⟩]⟩ :=
    Take_first _ _ _ _ rfl
  have e2 : Take ⟨100000000, -100000000⟩ ⟨t0, 0⟩ (t0 + 50 * Millisecond) true = ⟨false, []⟩ := by
    apply Take_reject _ _ _ _ h0
    simp [newDebt, Millisecond]
  have d3 : newDebt ⟨100000000, -100000000⟩ ⟨t0, 0⟩ (t0 + 150 * Millisecond) = -50000000 := by
    simp [newDebt, Millisecond]
  have e3 : Take ⟨100000000, -100000000⟩ ⟨t0, 0⟩ (t0 + 150 * Millisecond) true =
      ⟨true, [⟨⟨t0, 0⟩, ⟨t0 + 150 * Millisecond, -50000000⟩, true⟩]⟩ := by
    rw [Take_attempt _ _ _ _ h0 (by rw [d3]; decide), d3]
  have e4 : (Take ⟨100000000, -100000000⟩ ⟨t0 + 150 * Millisecond, -50000000⟩
      (t0 + 260 * Millisecond) true).ret = true := by
    by_cases hz : t0 + 150 * Millisecond = 0
    · rw [Take_first _ _ _ _ hz]
    · rw [Take_attempt _ _ _ _ hz]
      simp [newDebt, Millisecond]
  simp [runTakeNow, runTake_cons, runTake_nil, e1, e2, e3, e4, install]

/-- Witness for C8: the start instant 1000. -/
theorem worked_example_witness :
    ∃ l S0, New 10 1 Second = some (l, S0) ∧
      l.perRequest = 100 * Millisecond ∧
      (runTakeNow l S0 [1000, 1000 + 50 * Millisecond, 1000 + 150 * Millisecond,
        1000 + 260 * Millisecond]).1 = [true, false, true, true] :=
  worked_example 1000 (by decide)

/-- C9: on the cell of a freshly built limiter (`last` zero, debt 0), a `Take` at any clock
reading (a non-zero one in particular) whose compare-and-swap wins returns true and leaves `{last: now, sleep_debt: 0}`;
if its compare-and-swap loses it returns false after that single attempt, the cell unchanged. -/
theorem first_take_on_fresh_limiter (rate maxBurst duration : Int) (l : atomicLimiter)
    (S0 : state) (now : Int) (hnew : New rate maxBurst duration = some (l, S0)) :
    S0 = { last := 0, sleepFor := 0 } ∧
    (Take l S0 now true).ret = true ∧
    install S0 (Take l S0 now true).cas = { last := now, sleepFor := 0 } ∧
    writes (Take l S0 now true).cas = [{ last := now, sleepFor := 0 }] ∧
    (Take l S0 now false).ret = false ∧
    (Take l S0 now false).cas.length = 1 ∧
    writes (Take l S0 now false).cas = [] ∧
    install S0 (Take l S0 now false).cas = S0 := by
  have hS : S0 = { last := 0, sleepFor := 0 } := by
    unfold New newAtomicBased at hnew
    split_ifs at hnew
    simp at hnew
    exact hnew.2.symm
  subst hS
  refine ⟨rfl, ?_⟩
  rw [Take_first l _ now true rfl, Take_first l _ now false rfl]
  simp [install, writes]

/-- Witness for C9: `New(10, 1, time.Second)` read at instant 1000. -/
theorem first_take_on_fresh_limiter_witness :
    (Take ⟨100000000, -100000000⟩ ⟨0, 0⟩ 1000 true).ret = true ∧
    install ⟨0, 0⟩ (Take ⟨100000000, -100000000⟩ ⟨0, 0⟩ 1000 true).cas = ⟨1000, 0⟩ ∧
    (Take ⟨100000000, -100000000⟩ ⟨0, 0⟩ 1000 false).ret = false :=
  have h := first_take_on_fresh_limiter 10 1 Second ⟨100000000, -100000000⟩ ⟨0, 0⟩ 1000
    (by decide)
  ⟨h.2.1, h.2.2.1, h.2.2.2.2.1⟩

/-- C10: the loop of `spinTakePointer`, run on any per-iteration inputs (snapshot, clock
reading, swap outcome), ends within 5 iterations with one compare-and-swap per iteration; it
returns true exactly when one of the first 5 swaps wins and then stopped right after the
first winning one, having written the cell once; it returns false exactly when all 5 lose,
and then it ran 5 iterations, wrote nothing and did not sleep. -/
theorem spinTake_retry_budget (l : atomicLimiter) (inputs : Nat → spinInput) :
    (spinTakePointer l inputs).iterations ≤ 5 ∧
    (spinTakePointer l inputs).cas.length = (spinTakePointer l inputs).iterations ∧
    ((spinTakePointer l inputs).ret = true ↔ ∃ k, k < 5 ∧ (inputs k).wins = true) ∧
    ((spinTakePointer l inputs).ret = false ↔ ∀ k, k < 5 → (inputs k).wins = false) ∧
    ((spinTakePointer l inputs).ret = false →
      (spinTakePointer l inputs).slept = none ∧
      (spinTakePointer l inputs).iterations = 5 ∧
      writes (spinTakePointer l inputs).cas = []) ∧
    ((spinTakePointer l inputs).ret = true →
      ∃ k, k < 5 ∧ (inputs k).wins = true ∧ (∀ j, j < k → (inputs j).wins = false) ∧
        (spinTakePointer l inputs).iterations = k + 1 ∧
        (spinTakePointer l inputs).cas.map casEvent.swapped =
          List.replicate k false ++ [true] ∧
        (writes (spinTakePointer l inputs).cas).length = 1) := by
  have hspec := spinLoop_spec l inputs 5
    { newState := { last := 0, sleepFor := 0 }, taken := false, interval := 0,
      iterations := 0, cas := [] } rfl
  have hlen := writes_length (spinTakePointer l inputs).cas
  have hmap : ((spinTakePointer l inputs).cas.map casEvent.swapped).length
      = (spinTakePointer l inputs).cas.length := List.length_map _ _
  simp only [spinTakePointer] at hlen hmap ⊢
  simp only [Nat.zero_add, List.map_nil, List.nil_append] at hspec
  rcases hspec with ⟨h1, h2, h3, h4⟩ | ⟨k, hk, h1, h2, h3, h4, h5⟩
  · rw [h4] at hlen hmap
    simp only [List.length_replicate] at hmap
    have hw : writes (spinLoop l inputs 5
        { newState := { last := 0, sleepFor := 0 }, taken := false, interval := 0,
          iterations := 0, cas := [] }).cas = [] := by
      apply List.length_eq_zero.mp
      rw [hlen]
      decide
    rw [h2, h3, ← hmap, hw]
    refine ⟨le_refl _, rfl, ?_, ?_, ?_, ?_⟩
    · constructor
      · intro h; cases h
      · rintro ⟨k, hk, hkw⟩
        rw [h1 k hk] at hkw
        cases hkw
    · exact ⟨fun _ => h1, fun _ => rfl⟩
    · intro _
      exact ⟨rfl, rfl, rfl⟩
    · intro h; cases h
  · rw [h5] at hlen hmap
    simp only [List.length_append, List.length_replicate, List.length_singleton] at hmap
    have hcount : (List.replicate k false ++ [true]).count true = 1 := by
      simp [List.count_append, List.count_replicate]
    rw [hcount] at hlen
    rw [h3, h4, ← hmap, h5, hlen]
    refine ⟨by omega, rfl, ?_, ?_, ?_, ?_⟩
    · exact ⟨fun _ => ⟨k, hk, h1⟩, fun _ => rfl⟩
    · constructor
      · intro h; cases h
      · intro h
        rw [h k hk] at h1
        cases h1
    · intro h; cases h
    · intro _
      exact ⟨k, hk, h1, h2, rfl, rfl, rfl⟩

/-- Witness for C10: every snapshot is `{last: 1000, sleep_debt: 0}` read at 2000, and the
swaps of iterations 0 and 1 lose while the later ones win: three iterations, one write. -/
theorem spinTake_retry_budget_witness :
    (spinTakePointer ⟨100, -100⟩ (fun k => ⟨⟨1000, 0⟩, 2000, decide (2 ≤ k)⟩)).ret = true ∧
    (spinTakePointer ⟨100, -100⟩ (fun k => ⟨⟨1000, 0⟩, 2000, decide (2 ≤ k)⟩)).iterations = 3 ∧
    (spinTakePointer ⟨100, -100⟩ (fun k => ⟨⟨1000, 0⟩, 2000, decide (2 ≤ k)⟩)).iterations ≤ 5 ∧
    (writes (spinTakePointer ⟨100, -100⟩
      (fun k => ⟨⟨1000, 0⟩, 2000, decide (2 ≤ k)⟩)).cas).length = 1 := by
  have h := spinTake_retry_budget ⟨100, -100⟩ (fun k => ⟨⟨1000, 0⟩, 2000, decide (2 ≤ k)⟩)
  have hret : (spinTakePointer ⟨100, -100⟩
      (fun k => ⟨⟨1000, 0⟩, 2000, decide (2 ≤ k)⟩)).ret = true := by decide
  obtain ⟨k, _, _, _, _, _, hw⟩ := h.2.2.2.2.2 hret
  exact ⟨hret, by decide, h.1, hw⟩

/-- C11 (the code at a failing input): rate 10 per second, burst 1.  Iteration 0 reads the
cell `{last: 1000, sleep_debt: 0}` 50 ms later, computes a debt of 50 ms and loses its swap;
iteration 1 reads the cell `{last: 250001000, sleep_debt: -100 ms}` 1000 ns later, computes
the candidate debt -1000 (not positive, so the wait of that iteration is 0) and wins.  The
call installs `{last: now, sleep_debt: -1000}` and returns true, but it sleeps the 50 ms that
the failed iteration left in `interval`. -/
theorem spinTake_sleeps_stale_interval :
    newDebt ⟨100000000, -100000000⟩ ⟨250001000, -100000000⟩ 250002000 = -1000 ∧
    (spinTakePointer ⟨100000000, -100000000⟩
      (fun k => if k = 0 then ⟨⟨1000, 0⟩, 50001000, false⟩
        else ⟨⟨250001000, -100000000⟩, 250002000, true⟩)).ret = true ∧
    (spinTakePointer ⟨100000000, -100000000⟩
      (fun k => if k = 0 then ⟨⟨1000, 0⟩, 50001000, false⟩
        else ⟨⟨250001000, -100000000⟩, 250002000, true⟩)).iterations = 2 ∧
    writes (spinTakePointer ⟨100000000, -100000000⟩
      (fun k => if k = 0 then ⟨⟨1000, 0⟩, 50001000, false⟩
        else ⟨⟨250001000, -100000000⟩, 250002000, true⟩)).cas = [⟨250002000, -1000⟩] ∧
    (spinTakePointer ⟨100000000, -100000000⟩
      (fun k => if k = 0 then ⟨⟨1000, 0⟩, 50001000, false⟩
        else ⟨⟨250001000, -100000000⟩, 250002000, true⟩)).slept = some 50000000 ∧
    (spinTakePointer ⟨100000000, -100000000⟩
      (fun _ => ⟨⟨250001000, -100000000⟩, 250002000, true⟩)).slept = some 0 := by
  decide

/-- C12: an iteration of `spinTakePointer` on a snapshot `S` with non-zero `last`, read at
`now`, that wins its swap installs `{last: now + d, sleep_debt: 0}` when the candidate debt
`d = max(max_burst_debt, S.sleep_debt + per_request - (now - S.last))` is positive and
`{last: now, sleep_debt: d}` otherwise; and the one write of a call that returns true is the
state so built by the first iteration whose swap wins. -/
theorem spinTake_committed_state (l : atomicLimiter) :
    (∀ (inp : spinInput) (v : spinVars), inp.oldState.last ≠ 0 → inp.wins = true →
      (spinIter l inp v).taken = true ∧
      writes (spinIter l inp v).cas = writes v.cas ++
        [if 0 < newDebt l inp.oldState inp.now
          then { last := inp.now + newDebt l inp.oldState inp.now, sleepFor := 0 }
          else { last := inp.now, sleepFor := newDebt l inp.oldState inp.now }]) ∧
    (∀ (inputs : Nat → spinInput) (k : Nat), k < 5 → (inputs k).wins = true →
      (∀ j, j < k → (inputs j).wins = false) → (inputs k).oldState.last ≠ 0 →
      (spinTakePointer l inputs).ret = true ∧
      writes (spinTakePointer l inputs).cas =
        [if 0 < newDebt l (inputs k).oldState (inputs k).now
          then { last := (inputs k).now + newDebt l (inputs k).oldState (inputs k).now,
                 sleepFor := 0 }
          else { last := (inputs k).now,
                 sleepFor := newDebt l (inputs k).oldState (inputs k).now }]) := by
  have hnew : ∀ (inp : spinInput) (v : spinVars), inp.oldState.last ≠ 0 →
      (spinIter l inp v).newState =
        if 0 < newDebt l inp.oldState inp.now
          then { last := inp.now + newDebt l inp.oldState inp.now, sleepFor := 0 }
          else { last := inp.now, sleepFor := newDebt l inp.oldState inp.now } := by
    intro inp v hlast
    rcases lt_or_le 0 (newDebt l inp.oldState inp.now) with hd | hd
    · rw [spinIter_wait l inp v hlast hd, if_pos hd]
    · rw [spinIter_go l inp v hlast hd, if_neg (not_lt.mpr hd)]
  constructor
  · intro inp v hlast hw
    refine ⟨by rw [spinIter_taken, hw], ?_⟩
    rw [spinIter_cas, writes_append, hnew inp v hlast]
    simp [writes, hw]
  · intro inputs k hk hw hl hlast
    obtain ⟨h1, _, h3⟩ := spinLoop_first_win l inputs 5
      { newState := { last := 0, sleepFor := 0 }, taken := false, interval := 0,
        iterations := 0, cas := [] } k rfl hk (by simpa using hw)
      (fun j hj => by simpa using hl j hj)
    simp only [Nat.zero_add] at h3
    rw [hnew _ _ hlast] at h3
    exact ⟨h1, by simpa [spinTakePointer, writes] using h3⟩

/-- Witness for C12: rate 10 per second, burst 1, snapshot `{last: 1000, sleep_debt: 0}`; read
50 ms later the candidate debt is 50 ms and the winning iteration installs
`{last: now + 50 ms, sleep_debt: 0}`. -/
theorem spinTake_committed_state_witness :
    (spinTakePointer ⟨100000000, -100000000⟩
      (fun _ => ⟨⟨1000, 0⟩, 50001000, true⟩)).ret = true ∧
    writes (spinTakePointer ⟨100000000, -100000000⟩
      (fun _ => ⟨⟨1000, 0⟩, 50001000, true⟩)).cas = [⟨100001000, 0⟩] :=
  (spinTake_committed_state ⟨100000000, -100000000⟩).2
    (fun _ => ⟨⟨1000, 0⟩, 50001000, true⟩) 0 (by decide) rfl (fun j hj => absurd hj (by omega))
    (by decide)

/-- C13: for a limiter with `per_request > 0` and `max_burst = B ≥ 0`, in every sequential run
of uncontended `SpinTake` calls (clock readings after the zero time, any timeouts; so in
particular the runs in which no call is cut short) from a cell whose debt respects the floor,
the release instants `ri`, `rj` of the calls of index `i < j` satisfy
`rj - ri ≥ (j - i - B) * per_request`; and at most `T / per_request + B + 1` release instants
lie in any window `[a, a + T]`. -/
theorem spinTake_rate_bound (l : atomicLimiter) (B : Int) (S : state)
    (calls : List (Int × Int × Bool))
    (hp : 0 < l.perRequest) (hB : 0 ≤ B) (hmb : l.maxBurst = -1 * B * l.perRequest)
    (hS : l.maxBurst ≤ S.sleepFor) (hpos : ∀ c ∈ calls, 0 < c.1) :
    (∀ (i j : Nat) (ri rj : Int), i < j →
      (releases l S calls)[i]? = some ri → (releases l S calls)[j]? = some rj →
      ((j : Int) - (i : Int) - B) * l.perRequest ≤ rj - ri) ∧
    (∀ a T : Int, 0 ≤ T →
      (((releases l S calls).countP (fun x => decide (a ≤ x ∧ x ≤ a + T)) : Nat) : Int)
        ≤ T / l.perRequest + B + 1) := by
  have hmb0 : l.maxBurst ≤ 0 := by
    rw [hmb]
    have := mul_nonneg hB (le_of_lt hp)
    linarith
  have hnext : ∀ (S : state) (c : Int × Int × Bool), l.maxBurst ≤ S.sleepFor → 0 < c.1 →
      (install S (SpinTake l (uncontended S c.1) c.2.1 c.2.2).cas).last = releaseOf l S c.1 ∧
      releaseOf l S c.1 ≠ 0 ∧
      l.maxBurst ≤ (install S (SpinTake l (uncontended S c.1) c.2.1 c.2.2).cas).sleepFor := by
    intro S c hS hc
    obtain ⟨h1, h2, h3, h4⟩ := SpinTake_release l S c.1 c.2.1 c.2.2
    refine ⟨h1, by omega, ?_⟩
    by_cases hlast : S.last = 0
    · rw [h3 hlast]; exact hS
    · exact (h4 hlast hmb0).2.1
  constructor
  · intro i j ri rj hij hi hj
    induction calls generalizing S i j with
    | nil => simp [releases_nil] at hj
    | cons c cs ih =>
      have hc : 0 < c.1 := hpos c (List.mem_cons_self _ _)
      have hcs : ∀ x ∈ cs, 0 < x.1 := fun x hx => hpos x (List.mem_cons_of_mem _ hx)
      obtain ⟨h1, h2, h3⟩ := hnext S c hS hc
      rw [releases_cons] at hi hj
      obtain ⟨j, rfl⟩ : ∃ j1, j = j1 + 1 := ⟨j - 1, by omega⟩
      simp only [List.getElem?_cons_succ] at hj
      cases i with
      | zero =>
        simp only [List.getElem?_cons_zero, Option.some.injEq] at hi
        subst hi
        have := releases_spacing_from l hmb0 cs hcs _ (by rw [h1]; exact h2) j rj hj
        rw [h1] at this
        rw [hmb] at h3
        push_cast
        linarith
      | succ i =>
        simp only [List.getElem?_cons_succ] at hi
        have := ih _ h3 hcs i j (by omega) hi hj
        push_cast
        linarith
  · intro a T hT
    have hquot : 0 ≤ T / l.perRequest := Int.ediv_nonneg hT (le_of_lt hp)
    induction calls generalizing S with
    | nil =>
      simp only [releases_nil, List.countP_nil, Nat.cast_zero]
      omega
    | cons c cs ih =>
      have hc : 0 < c.1 := hpos c (List.mem_cons_self _ _)
      have hcs : ∀ x ∈ cs, 0 < x.1 := fun x hx => hpos x (List.mem_cons_of_mem _ hx)
      obtain ⟨h1, h2, h3⟩ := hnext S c hS hc
      rw [releases_cons, List.countP_cons]
      by_cases hin : a ≤ releaseOf l S c.1 ∧ releaseOf l S c.1 ≤ a + T
      · simp only [hin, and_self, decide_True, if_true]
        have hle : (releases l (install S (SpinTake l (uncontended S c.1) c.2.1 c.2.2).cas)
              cs).countP (fun x => decide (a ≤ x ∧ x ≤ a + T))
            ≤ (releases l (install S (SpinTake l (uncontended S c.1) c.2.1 c.2.2).cas)
              cs).countP (fun x => decide (x ≤ a + T)) := by
          apply List.countP_mono_left
          intro x _ hx
          simp only [decide_eq_true_eq] at hx ⊢
          exact hx.2
        rcases Nat.eq_zero_or_pos
          ((releases l (install S (SpinTake l (uncontended S c.1) c.2.1 c.2.2).cas)
            cs).countP (fun x => decide (x ≤ a + T))) with h0 | hpos1
        · rw [h0] at hle
          have : (releases l (install S (SpinTake l (uncontended S c.1) c.2.1 c.2.2).cas)
              cs).countP (fun x => decide (a ≤ x ∧ x ≤ a + T)) = 0 := by
            omega
          rw [this]
          push_cast
          omega
        · have hcnt := releases_count_from l hp hmb0 (a + T) cs hcs _
            (by rw [h1]; exact h2) hpos1
          rw [h1] at hcnt
          rw [hmb] at h3
          have hmul : ((((releases l
              (install S (SpinTake l (uncontended S c.1) c.2.1 c.2.2).cas) cs).countP
              (fun x => decide (x ≤ a + T)) : Nat) : Int) - B) * l.perRequest ≤ T := by
            linarith [hin.1]
          have hdiv := (Int.le_ediv_iff_mul_le hp).mpr hmul
          have hle2 : (((releases l
              (install S (SpinTake l (uncontended S c.1) c.2.1 c.2.2).cas) cs).countP
              (fun x => decide (a ≤ x ∧ x ≤ a + T)) : Nat) : Int)
              ≤ (((releases l
                (install S (SpinTake l (uncontended S c.1) c.2.1 c.2.2).cas) cs).countP
                (fun x => decide (x ≤ a + T)) : Nat) : Int) :=
            Int.ofNat_le.mpr hle
          push_cast
          omega
      · simp only [hin, decide_False, Bool.false_eq_true, if_false, Nat.add_zero]
        exact ih _ h3 hcs

/-- Witness for C13: rate 10 per second, burst 1, the fresh cell, three calls at the instant
1000 with a timeout of one second: they are released at 1000, 1000 + 100 ms and
1000 + 200 ms. -/
theorem spinTake_rate_bound_witness :
    releases ⟨100000000, -100000000⟩ ⟨0, 0⟩
        [(1000, 1000000000, false), (1000, 1000000000, false), (1000, 1000000000, false)] =
      [1000, 100001000, 200001000] ∧
    (((2 : Nat) : Int) - ((0 : Nat) : Int) - 1) * (100000000 : Int) ≤ 200001000 - 1000 ∧
    (((releases ⟨100000000, -100000000⟩ ⟨0, 0⟩
        [(1000, 1000000000, false), (1000, 1000000000, false),
          (1000, 1000000000, false)]).countP
        (fun x => decide ((0 : Int) ≤ x ∧ x ≤ 0 + 150000000)) : Nat) : Int)
      ≤ 150000000 / (100000000 : Int) + 1 + 1 :=
  have h := spinTake_rate_bound ⟨100000000, -100000000⟩ 1 ⟨0, 0⟩
    [(1000, 1000000000, false), (1000, 1000000000, false), (1000, 1000000000, false)]
    (by decide) (by decide) (by decide) (by decide) (by decide)
  ⟨by decide, h.1 0 2 1000 200001000 (by decide) (by decide) (by decide),
    h.2 0 150000000 (by decide)⟩

/-- C15: `N ≥ 1` goroutines run `Take()` concurrently on the fresh limiter
`New(1, 1, period)`, their clock readings non-zero and all within one window
`[t0, t0 + period)`.  In every interleaving of their steps (load, then the rest of `Take`
with its compare-and-swap), every goroutine scheduled twice has returned, and once all have
returned exactly one of them has returned true.  And for every limiter, initial cell, clock
readings and interleaving, no two goroutines that loaded the same pointer both have a
successful compare-and-swap. -/
theorem single_winner_under_contention :
    (∀ (period : Int) (N : Nat) (nows : Nat → Int) (t0 : Int) (sched : List Nat),
      1 ≤ N → (∀ i, i < N → nows i ≠ 0) →
      (∀ i, i < N → t0 ≤ nows i ∧ nows i < t0 + period) →
      ∃ l S0, New 1 1 period = some (l, S0) ∧
        ((∀ i, i < N → 2 ≤ sched.count i) →
          ∀ i, i < N → ((runSchedule l nows N (initWorld S0) sched).phase i).result ≠ none) ∧
        ((∀ i, i < N → ((runSchedule l nows N (initWorld S0) sched).phase i).result ≠ none) →
          ∃ a, a < N ∧
            ((runSchedule l nows N (initWorld S0) sched).phase a).result = some true ∧
            ∀ i, i < N → i ≠ a →
              ((runSchedule l nows N (initWorld S0) sched).phase i).result = some false)) ∧
    (∀ (l : atomicLimiter) (S0 : state) (nows : Nat → Int) (N : Nat) (sched : List Nat)
      (i j q : Nat), i ≠ j →
      ((runSchedule l nows N (initWorld S0) sched).phase i).swappedFrom = some q →
      ((runSchedule l nows N (initWorld S0) sched).phase j).swappedFrom ≠ some q) := by
  constructor
  · intro period N nows t0 sched hN hnz hwin
    refine ⟨{ perRequest := period, maxBurst := mul64 (mul64 (-1) 1) period },
      { last := 0, sleepFor := 0 }, by simp [New, newAtomicBased, div64], ?_, ?_⟩
    · intro hcount i hi
      apply takePhase.result_ne_none_of_rank
      rw [runSchedule_rank _ nows N i hi sched]
      have := hcount i hi
      omega
    · intro hall
      have hinit : FirstWindowInv nows N (initWorld { last := 0, sleepFor := 0 }) :=
        ⟨Nat.one_ne_zero, Or.inl ⟨rfl, fun _ _ => Or.inl rfl⟩⟩
      obtain ⟨_, ⟨_, hph⟩ | ⟨a, ha, _, _, hra, hothers⟩⟩ :=
        FirstWindowInv_run { perRequest := period, maxBurst := mul64 (mul64 (-1) 1) period }
          nows N t0
          hnz hwin sched _ hinit
      · exfalso
        have h0 := hall 0 (by omega)
        rcases hph 0 (by omega) with h | h <;> rw [h] at h0 <;>
          simp [takePhase.result] at h0
      · refine ⟨a, ha, hra, fun i hi hia => ?_⟩
        have hi0 := hall i hi
        rcases hothers i hi hia with h | h | h | h
        · rw [h] at hi0; simp [takePhase.result] at hi0
        · rw [h] at hi0; simp [takePhase.result] at hi0
        · rw [h] at hi0; simp [takePhase.result] at hi0
        · exact h
  · intro l S0 nows N sched i j q hij
    exact (FreshInv_run l nows N sched _ (FreshInv_init S0)).2.2 i j q hij

/-- Witness for C15: three goroutines on `New(1, 1, time.Second)` reading 1000, 1001 and
1002, interleaved as 0, 1, 2, 1, 0, 2: goroutine 1 is the first to swap and the only one to
return true. -/
theorem single_winner_under_contention_witness :
    (∃ l S0, New 1 1 Second = some (l, S0) ∧
      ∃ a, a < 3 ∧
        ((runSchedule l (fun i => 1000 + (i : Int)) 3 (initWorld S0)
          [0, 1, 2, 1, 0, 2]).phase a).result = some true ∧
        ∀ i, i < 3 → i ≠ a →
          ((runSchedule l (fun i => 1000 + (i : Int)) 3 (initWorld S0)
            [0, 1, 2, 1, 0, 2]).phase i).result = some false) ∧
    ((runSchedule ⟨1000000000, -1000000000⟩ (fun i => 1000 + (i : Int)) 3 (initWorld ⟨0, 0⟩)
      [0, 1, 2, 1, 0, 2]).phase 1).result = some true := by
  obtain ⟨l, S0, h1, h2, h3⟩ := single_winner_under_contention.1 Second 3
    (fun i => 1000 + (i : Int)) 1000 [0, 1, 2, 1, 0, 2] (by decide)
    (fun i _ => by show (1000 : Int) + (i : Int) ≠ 0; omega)
    (fun i hi => by
      show (1000 : Int) ≤ 1000 + (i : Int) ∧ (1000 : Int) + (i : Int) < 1000 + Second
      simp only [Second]
      omega)
  exact ⟨⟨l, S0, h1, h3 (h2 (by decide))⟩, by decide⟩

/-- C16 as stated fails: for `New(1, 200000, 24 * time.Hour)` (rate at least 1, burst and
period non-negative) the product `-max_burst * per_request` wraps in int64 to a positive
floor, and the initial cell, which is reachable, has its debt 0 below it. -/
theorem stored_debt_floor_counterexample :
    ∃ l S0, New 1 200000 (24 * 3600 * Second) = some (l, S0) ∧
      Reachable l S0 S0 ∧ S0.sleepFor = 0 ∧ l.maxBurst = 1166744073709551616 ∧
      ¬ (l.maxBurst ≤ S0.sleepFor ∧ S0.sleepFor ≤ 0) :=
  ⟨⟨86400000000000, 1166744073709551616⟩, ⟨0, 0⟩, by decide, Reachable.init, rfl, rfl,
    by decide⟩

/-- C16, amended: for rate at least 1, a non-negative burst and a non-negative period, the
initial cell and every cell reachable through `Take` and `SpinTake` calls (any clock readings,
any swap outcomes, any timeouts) hold a debt that is not positive; and when
`max_burst * per_request ≤ 2^63`, so that the int64 product does not wrap,
`max_burst_debt = -max_burst * per_request` and `max_burst_debt ≤ sleep_debt ≤ 0` on all of
them. -/
theorem stored_debt_never_positive (rate maxBurst duration : Int)
    (hrate : 1 ≤ rate) (hburst : 0 ≤ maxBurst) (hdur : 0 ≤ duration) :
    ∃ l S0, New rate maxBurst duration = some (l, S0) ∧
      (∀ S, Reachable l S0 S → S.sleepFor ≤ 0) ∧
      (maxBurst * l.perRequest ≤ 9223372036854775808 →
        l.maxBurst = -maxBurst * l.perRequest ∧
        ∀ S, Reachable l S0 S → l.maxBurst ≤ S.sleepFor ∧ S.sleepFor ≤ 0) := by
  obtain ⟨l, S0, hnew, _, _, _, hex, hS⟩ := New_valid rate maxBurst duration hrate hburst hdur
  have hle : ∀ S, Reachable l S0 S → S.sleepFor ≤ 0 :=
    fun S h => Reachable.sleepFor_le_zero l S0 S (by rw [hS]) h
  refine ⟨l, S0, hnew, hle, fun hov => ?_⟩
  obtain ⟨hm, hm0⟩ := hex hov
  refine ⟨by rw [hm, neg_one_mul], fun S h => ⟨?_, hle S h⟩⟩
  exact Reachable.maxBurst_le l S0 S hm0 (by rw [hS]; exact hm0) h

/-- Witness for C16 amended: `New(10, 1, time.Second)`, where the product does not wrap. -/
theorem stored_debt_never_positive_witness :
    ∃ l S0, New 10 1 Second = some (l, S0) ∧ l.maxBurst = -1 * l.perRequest ∧
      ∀ S, Reachable l S0 S → l.maxBurst ≤ S.sleepFor ∧ S.sleepFor ≤ 0 := by
  obtain ⟨l, S0, h1, _, h3⟩ :=
    stored_debt_never_positive 10 1 Second (by decide) (by decide) (by decide)
  have hl : l = ⟨100000000, -100000000⟩ := by
    have h : New 10 1 Second = some (⟨100000000, -100000000⟩, ⟨0, 0⟩) := by decide
    rw [h] at h1
    simp only [Option.some.injEq, Prod.mk.injEq] at h1
    exact h1.1.symm
  exact ⟨l, S0, h1, h3 (by rw [hl]; decide)⟩

/-- C17 as stated fails: `New(10, -5, time.Second)` has `per_request` 100 ms and the burst
floor +500 ms.  One uncontended `SpinTake` at the instant 1000 from the cell
`{last: 1000, sleep_debt: 0}` clamps its debt of 100 ms up to the floor and leaves
`{last: 1000 + 500 ms, sleep_debt: 0}`, not `{last: 1000 + 1 * per_request, sleep_debt: 0}`. -/
theorem abandoned_spinTake_counterexample :
    ∃ l S0, New 10 (-5) Second = some (l, S0) ∧
      l.perRequest = 100000000 ∧ 0 < l.perRequest ∧ l.maxBurst = 500000000 ∧
      (runSpinTake l { last := 1000, sleepFor := 0 } [(1000, Second, false)]).2 =
        { last := 500001000, sleepFor := 0 } ∧
      (runSpinTake l { last := 1000, sleepFor := 0 } [(1000, Second, false)]).2 ≠
        { last := 1000 + 1 * l.perRequest, sleepFor := 0 } :=
  ⟨⟨100000000, 500000000⟩, ⟨0, 0⟩, by decide, rfl, by decide, rfl, by decide, by decide⟩

/-- C17, amended: an uncontended `SpinTake` on the cell `S` read at `now` installs the same
state for every timeout and every outcome of the race with the timer, the call returning
false included: `{now, S.sleep_debt}` on a zero `last`, else `{now + d, 0}` for a candidate
debt `d > 0` and `{now, d}` otherwise; in general the compare-and-swap calls of `SpinTake` are
the same for every pair of timeouts.  So, with `per_request > 0` and a burst floor
`max_burst_debt ≤ per_request` (as for every `max_burst ≥ 0` whose product with `per_request`
does not wrap), `n` sequential uncontended `SpinTake` calls made at one instant `t` (after the
zero time) from the cell `{last: t, sleep_debt: 0}` leave
`{last: t + n * per_request, sleep_debt: 0}` whatever their timeouts and results, and after
them every `Take` read earlier than `t + (n + 1) * per_request` returns false and leaves that
cell. -/
theorem abandoned_spinTake_reserves_slot (l : atomicLimiter) :
    (∀ (S : state) (now m : Int) (f : Bool),
      install S (SpinTake l (uncontended S now) m f).cas =
        (if S.last = 0 then { last := now, sleepFor := S.sleepFor }
         else if 0 < newDebt l S now then { last := now + newDebt l S now, sleepFor := 0 }
         else { last := now, sleepFor := newDebt l S now }) ∧
      (spinTakePointer l (uncontended S now)).ret = true) ∧
    (∀ (inputs : Nat → spinInput) (m1 m2 : Int) (f1 f2 : Bool) (cell : state),
      (SpinTake l inputs m1 f1).cas = (SpinTake l inputs m2 f2).cas ∧
      install cell (SpinTake l inputs m1 f1).cas = install cell (SpinTake l inputs m2 f2).cas) ∧
    (0 < l.perRequest → l.maxBurst ≤ l.perRequest →
      ∀ (t : Int), 0 < t → ∀ (tm : List (Int × Bool)),
      (runSpinTake l { last := t, sleepFor := 0 } (tm.map (fun x => (t, x.1, x.2)))).2 =
        { last := t + (tm.length : Int) * l.perRequest, sleepFor := 0 } ∧
      ∀ (cs : List (Int × Bool)),
        (∀ c ∈ cs, c.1 < t + ((tm.length : Int) + 1) * l.perRequest) →
        (runTake l { last := t + (tm.length : Int) * l.perRequest, sleepFor := 0 } cs).1 =
          List.replicate cs.length false ∧
        (runTake l { last := t + (tm.length : Int) * l.perRequest, sleepFor := 0 } cs).2 =
          { last := t + (tm.length : Int) * l.perRequest, sleepFor := 0 }) := by
  refine ⟨?_, fun inputs m1 m2 f1 f2 cell => ⟨rfl, rfl⟩, ?_⟩
  · intro S now m f
    refine ⟨?_, by rw [spinTakePointer_uncontended]⟩
    rcases SpinTake_step l S now m f with ⟨h0, _, hi⟩ | ⟨h0, hd, _, hi⟩ | ⟨h0, hd, _, hi⟩
    · rw [hi, if_pos h0]
    · rw [hi, if_neg h0, if_pos hd]
    · rw [hi, if_neg h0, if_neg (not_lt.mpr hd)]
  intro hp hmb t ht tm
  constructor
  · have := runSpinTake_same_instant l hp hmb t ht tm 0
    simpa using this
  · have hn : (0 : Int) ≤ (tm.length : Int) * l.perRequest :=
      mul_nonneg (Int.ofNat_nonneg _) (le_of_lt hp)
    intro cs
    induction cs with
    | nil => intro _; exact ⟨rfl, rfl⟩
    | cons c cs ih =>
      intro hcs
      have hc := hcs c (List.mem_cons_self _ _)
      have hrej : Take l { last := t + (tm.length : Int) * l.perRequest, sleepFor := 0 }
          c.1 c.2 = { ret := false, cas := [] } := by
        apply Take_reject
        · simp only; omega
        · have := elapsed_le_newDebt l
            { last := t + (tm.length : Int) * l.perRequest, sleepFor := 0 } c.1
          simp only at this
          linarith
      obtain ⟨h1, h2⟩ := ih (fun x hx => hcs x (List.mem_cons_of_mem _ hx))
      rw [runTake_cons, hrej, install_nil, h1, h2]
      exact ⟨rfl, rfl⟩

/-- Witness for C17 amended: rate 10 per second, burst 1, the cell
`{last: 1000, sleep_debt: 0}`; two calls at the instant 1000, the first with a timeout of
1 ms, the second with one second: the cell ends at `last = 1000 + 200 ms`, and a `Take`
299 ms after 1000 is rejected. -/
theorem abandoned_spinTake_reserves_slot_witness :
    (runSpinTake ⟨100000000, -100000000⟩ ⟨1000, 0⟩
      ([(1000000, false), (1000000000, false)].map (fun x => (1000, x.1, x.2)))).2 =
        ⟨1000 + (([(1000000, false), (1000000000, false)] : List (Int × Bool)).length : Int)
          * 100000000, 0⟩ ∧
    (runTake ⟨100000000, -100000000⟩
      ⟨1000 + (([(1000000, false), (1000000000, false)] : List (Int × Bool)).length : Int)
          * 100000000, 0⟩ [(299001000, true)]).1 = List.replicate 1 false := by
  have h := (abandoned_spinTake_reserves_slot ⟨100000000, -100000000⟩).2.2
    (by decide) (by decide) 1000 (by decide) [(1000000, false), (1000000000, false)]
  exact ⟨h.1, (h.2 [(299001000, true)] (by decide)).1⟩

/-- C18: an uncontended `Take` on a cell `S` that is admitted at `t` is admitted at every
`t' ≥ t`; and when `S.last` is non-zero and `max_burst_debt ≤ 0` it is admitted exactly from
the instant `S.last + S.sleep_debt + per_request` on. -/
theorem take_monotone_in_time (l : atomicLimiter) (S : state) :
    (∀ t t' : Int, t ≤ t' → (Take l S t true).ret = true → (Take l S t' true).ret = true) ∧
    (S.last ≠ 0 → l.maxBurst ≤ 0 →
      ∀ t : Int, (Take l S t true).ret = true ↔ S.last + S.sleepFor + l.perRequest ≤ t) := by
  constructor
  · intro t t' htt h
    by_cases hlast : S.last = 0
    · rw [Take_first l S t' true hlast]
    · rw [Take_ret_iff l S t hlast] at h
      rw [Take_ret_iff l S t' hlast]
      exact le_trans (newDebt_antitone l S t t' htt) h
  · intro hlast hmb t
    rw [Take_ret_iff l S t hlast]
    unfold newDebt
    rw [max_le_iff]
    constructor
    · intro h; omega
    · intro h; exact ⟨hmb, by omega⟩

/-- Witness for C18: rate 10 per second, burst 1, the cell `{last: 1000, sleep_debt: 0}`:
admitted exactly from 100 ms after `last`. -/
theorem take_monotone_in_time_witness :
    ((Take ⟨100000000, -100000000⟩ ⟨1000, 0⟩ 100000999 true).ret = true ↔
      (⟨1000, 0⟩ : state).last + (⟨1000, 0⟩ : state).sleepFor
        + (⟨100000000, -100000000⟩ : atomicLimiter).perRequest ≤ 100000999) ∧
    (Take ⟨100000000, -100000000⟩ ⟨1000, 0⟩ 100000999 true).ret = false ∧
    (Take ⟨100000000, -100000000⟩ ⟨1000, 0⟩ 100001000 true).ret = true :=
  ⟨(take_monotone_in_time ⟨100000000, -100000000⟩ ⟨1000, 0⟩).2 (by decide) (by decide)
    100000999, by decide, by decide⟩

/-- C19: for rate at least 1, a non-negative burst and a period with `0 ≤ period < rate`, `New`
yields `per_request = 0` (the truncated quotient) and `max_burst_debt = 0`; then an uncontended
`Take` on any reachable cell at a reading not earlier than the stored `last` returns true, and
every sequential uncontended run from the fresh cell at readings that never go back admits
every call. -/
theorem truncated_spacing_disables_limiting (rate maxBurst period : Int)
    (hrate : 1 ≤ rate) (hburst : 0 ≤ maxBurst) (hp0 : 0 ≤ period) (hp1 : period < rate) :
    ∃ l S0, New rate maxBurst period = some (l, S0) ∧
      l.perRequest = Int.tdiv period rate ∧ l.perRequest = 0 ∧ l.maxBurst = 0 ∧
      (∀ S, Reachable l S0 S → ∀ now : Int, S.last ≤ now → (Take l S now true).ret = true) ∧
      (∀ nows : List Int, nows.Pairwise (fun a b => a ≤ b) →
        (runTakeNow l S0 nows).1 = List.replicate nows.length true) := by
  obtain ⟨l, S0, hnew, hp, _, _, hex, hS⟩ := New_valid rate maxBurst period hrate hburst hp0
  have hpz : l.perRequest = 0 := by
    rw [hp]
    exact Int.tdiv_eq_zero_of_lt hp0 hp1
  have hmz : l.maxBurst = 0 := by
    rw [(hex (by rw [hpz, mul_zero]; norm_num)).1, hpz, mul_zero]
  refine ⟨l, S0, hnew, hp, hpz, hmz, ?_, ?_⟩
  · intro S hreach now hle
    have hs := Reachable.sleepFor_le_zero l S0 S (by rw [hS]) hreach
    exact (Take_no_spacing l hpz hmz S now hs (Or.inr hle)).1
  · intro nows hsorted
    exact runTakeNow_no_spacing l hpz hmz nows hsorted S0 (by rw [hS]) (Or.inl (by rw [hS]))

/-- Witness for C19: `New(2000000000, 1, time.Second)`, two billion per second: the spacing
truncates to 0 and three calls at the same instant are all admitted. -/
theorem truncated_spacing_disables_limiting_witness :
    ∃ l S0, New 2000000000 1 Second = some (l, S0) ∧ l.perRequest = 0 ∧ l.maxBurst = 0 ∧
      (runTakeNow l S0 [1000, 1000, 1000]).1 = List.replicate 3 true := by
  obtain ⟨l, S0, h1, _, h3, h4, _, h6⟩ :=
    truncated_spacing_disables_limiting 2000000000 1 Second
      (by decide) (by decide) (by decide) (by decide)
  exact ⟨l, S0, h1, h3, h4, h6 [1000, 1000, 1000] (by decide)⟩

end ratelimit
